import Mathlib

/-!
# Tic-tac-toe game tree (`src/main.cpp`)

A shallow embedding of `GameState` (the 9-cell board with its terminal-state
queries and successor generation) and of `TicTacToeTree` (exhaustive minimax and
best-move selection), followed by theorems about them.

Modelling conventions.

* A cell is a `char`; it is embedded as `Char`, and `EMPTY` is the blank.
* `vector<char> board` is a `List Char`.  The source constructs boards of any
  length, and reading `board[i]` past the end is undefined there; the embedding
  reads such a cell as `EMPTY`, and every theorem that depends on a read assumes
  a board of exactly 9 cells.
* `int` scores are `Int`; the only arithmetic on them is `max`, `min` and
  comparison, so nothing can overflow.  The two sentinels are the 32-bit limits.
* The recursion of `minimax` is embedded with an explicit budget of nested
  calls: `minimaxFuel` returns `none` when the budget is exhausted.
* `rand()` is an explicit argument of `findBestMove`.
* Scores that need a search of the game tree are not computed by running
  `minimax`: a lower and an upper bound are searched for (`atLeast`, `atMost`),
  on a bit-set form of the board (`bitAtLeast`, `bitAtMost`), and both searches
  are proved sound for `minimax`.
-/

namespace TicTacToe

/-- The blank cell, `const char EMPTY = ' '`. -/
def EMPTY : Char := ' '

/-- Lower sentinel `numeric_limits<int>::min()`. -/
def INT_MIN : Int := -2147483648

/-- Upper sentinel `numeric_limits<int>::max()`. -/
def INT_MAX : Int := 2147483647

/-- Class `GameState`: the board vector. -/
structure GameState where
  board : List Char
deriving DecidableEq, Repr

namespace GameState

/-- Default constructor `GameState() : board(9, EMPTY)`. -/
def init : GameState := ⟨List.replicate 9 EMPTY⟩

/-- Read of `board[i]`. -/
def cell (s : GameState) (i : Nat) : Char := s.board.getD i EMPTY

/-- Loop of `isFull`: scans the cells and answers `false` at the first blank. -/
def isFullLoop : List Char → Bool
  | [] => true
  | c :: rest => if c = EMPTY then false else isFullLoop rest

/-- Method `isFull`. -/
def isFull (s : GameState) : Bool := isFullLoop s.board

/-- Table `winPatterns` local to `checkWinner`. -/
def winPatterns : List (Nat × Nat × Nat) :=
  [(0, 1, 2), (3, 4, 5), (6, 7, 8),
   (0, 3, 6), (1, 4, 7), (2, 5, 8),
   (0, 4, 8), (2, 4, 6)]

/-- Condition tested on each pattern by the loop of `checkWinner`. -/
def lineWon (s : GameState) (p : Nat × Nat × Nat) : Bool :=
  decide (s.cell p.1 ≠ EMPTY) && decide (s.cell p.1 = s.cell p.2.1) &&
    decide (s.cell p.2.1 = s.cell p.2.2)

/-- Loop of `checkWinner` over the remaining patterns. -/
def checkWinnerLoop (s : GameState) : List (Nat × Nat × Nat) → Char
  | [] => EMPTY
  | p :: rest => if s.lineWon p then s.cell p.1 else checkWinnerLoop s rest

/-- Method `checkWinner`. -/
def checkWinner (s : GameState) : Char := checkWinnerLoop s winPatterns

/-- Method `isGameOver`. -/
def isGameOver (s : GameState) : Bool := decide (s.checkWinner ≠ EMPTY) || s.isFull

/-- Loop of `getAvailableMoves` over the remaining indices. -/
def getAvailableMovesLoop (s : GameState) : List Nat → List Nat
  | [] => []
  | i :: rest =>
    if s.cell i = EMPTY then i :: getAvailableMovesLoop s rest
    else getAvailableMovesLoop s rest

/-- Method `getAvailableMoves`: `for (int i = 0; i < 9; ++i)`. -/
def getAvailableMoves (s : GameState) : List Nat := getAvailableMovesLoop s (List.range 9)

/-- Method `makeMove`: copies the board and writes one cell. -/
def makeMove (s : GameState) (index : Nat) (player : Char) : GameState :=
  ⟨s.board.set index player⟩

/-- Number of blank cells of the board. -/
def emptyCount (s : GameState) : Nat := s.board.count EMPTY

/-- A win pattern held in full by one mark: three equal non-blank cells. -/
def threeInRow (s : GameState) (p : Nat × Nat × Nat) : Prop :=
  s.cell p.1 ≠ EMPTY ∧ s.cell p.1 = s.cell p.2.1 ∧ s.cell p.2.1 = s.cell p.2.2

instance (s : GameState) (p : Nat × Nat × Nat) : Decidable (s.threeInRow p) := by
  unfold threeInRow
  infer_instance

/-- The same board with every cell renamed by `σ`. -/
def rename (σ : Char → Char) (s : GameState) : GameState := ⟨s.board.map σ⟩

end GameState

/-- Class `TicTacToeTree`: the two marks fixed at construction. -/
structure TicTacToeTree where
  humanPlayer : Char
  computerPlayer : Char
deriving DecidableEq, Repr

namespace TicTacToeTree

open GameState

/-- One `for (int move : state.getAvailableMoves())` loop of `minimax`: `child`
is the recursive call made for a move and `combine` is `max` or `min`, folded
into `bestScore`. -/
def scoreLoop (combine : Int → Int → Int) (child : Nat → Option Int) :
    Int → List Nat → Option Int
  | bestScore, [] => some bestScore
  | bestScore, move :: rest =>
    match child move with
    | none => none
    | some score => scoreLoop combine child (combine bestScore score) rest

/-- Body of `minimax` with a budget of nested calls; `none` when it runs out. -/
def minimaxFuel (ai : TicTacToeTree) : Nat → GameState → Bool → Option Int
  | 0, _, _ => none
  | fuel + 1, state, isMaximizing =>
    let winner := state.checkWinner
    if winner = ai.computerPlayer then some 1
    else if winner = ai.humanPlayer then some (-1)
    else if state.isFull then some 0
    else if isMaximizing then
      scoreLoop max
        (fun move => minimaxFuel ai fuel (state.makeMove move ai.computerPlayer) false)
        INT_MIN state.getAvailableMoves
    else
      scoreLoop min
        (fun move => minimaxFuel ai fuel (state.makeMove move ai.humanPlayer) true)
        INT_MAX state.getAvailableMoves

/-- Method `minimax`, run with one nested call per blank cell plus one. -/
def minimax (ai : TicTacToeTree) (state : GameState) (isMaximizing : Bool) : Option Int :=
  ai.minimaxFuel (state.emptyCount + 1) state isMaximizing

/-- Loop of `findBestMove`, carrying `bestScore` and `bestMoves`. -/
def findBestMoveLoop (ai : TicTacToeTree) (state : GameState) :
    Int → List Nat → List Nat → Option (Int × List Nat)
  | bestScore, bestMoves, [] => some (bestScore, bestMoves)
  | bestScore, bestMoves, move :: rest =>
    match ai.minimax (state.makeMove move ai.computerPlayer) false with
    | none => none
    | some score =>
      if score > bestScore then findBestMoveLoop ai state score [move] rest
      else if score = bestScore then
        findBestMoveLoop ai state bestScore (bestMoves ++ [move]) rest
      else findBestMoveLoop ai state bestScore bestMoves rest

/-- Method `findBestMove`; `r` is the value returned by `rand()`.  The result is
`none` when a score is missing or when `bestMoves` is empty (a remainder by zero
in the source). -/
def findBestMove (ai : TicTacToeTree) (state : GameState) (r : Nat) : Option Nat :=
  match findBestMoveLoop ai state INT_MIN [] state.getAvailableMoves with
  | none => none
  | some (_, bestMoves) =>
    if bestMoves.length = 0 then none else bestMoves[r % bestMoves.length]?

/-- Search for a proof that the score of a 9-cell board is at least `v`: one
good move at a maximizing node, every move at a minimizing node.  The board is
taken apart into its nine cells so that each node works on an evaluated list. -/
def atLeast (ai : TicTacToeTree) : Nat → GameState → Bool → Int → Bool
  | fuel + 1, ⟨[c0, c1, c2, c3, c4, c5, c6, c7, c8]⟩, isMaximizing, v =>
    let state : GameState := ⟨[c0, c1, c2, c3, c4, c5, c6, c7, c8]⟩
    let winner := state.checkWinner
    if winner = ai.computerPlayer then decide (v ≤ 1)
    else if winner = ai.humanPlayer then decide (v ≤ -1)
    else if state.isFull then decide (v ≤ 0)
    else if isMaximizing then
      state.getAvailableMoves.any
        (fun move => atLeast ai fuel (state.makeMove move ai.computerPlayer) false v)
    else
      state.getAvailableMoves.all
        (fun move => atLeast ai fuel (state.makeMove move ai.humanPlayer) true v)
  | _, _, _, _ => false

/-- Search for a proof that the score of a 9-cell board is at most `v`: every
move at a maximizing node, one good reply at a minimizing node. -/
def atMost (ai : TicTacToeTree) : Nat → GameState → Bool → Int → Bool
  | fuel + 1, ⟨[c0, c1, c2, c3, c4, c5, c6, c7, c8]⟩, isMaximizing, v =>
    let state : GameState := ⟨[c0, c1, c2, c3, c4, c5, c6, c7, c8]⟩
    let winner := state.checkWinner
    if winner = ai.computerPlayer then decide (1 ≤ v)
    else if winner = ai.humanPlayer then decide (-1 ≤ v)
    else if state.isFull then decide (0 ≤ v)
    else if isMaximizing then
      state.getAvailableMoves.all
        (fun move => atMost ai fuel (state.makeMove move ai.computerPlayer) false v)
    else
      state.getAvailableMoves.any
        (fun move => atMost ai fuel (state.makeMove move ai.humanPlayer) true v)
  | _, _, _, _ => false

end TicTacToeTree

/-- Cell `i` of the position in which the computer holds the cells of the bit set
`cm` and the human holds the cells of the bit set `hm` that are not in `cm`. -/
def bitCell (ai : TicTacToeTree) (hm cm i : Nat) : Char :=
  if cm.testBit i then ai.computerPlayer
  else if hm.testBit i then ai.humanPlayer else EMPTY

/-- The 9-cell board described by two bit sets. -/
def bitBoard (ai : TicTacToeTree) (hm cm : Nat) : GameState :=
  ⟨[bitCell ai hm cm 0, bitCell ai hm cm 1, bitCell ai hm cm 2, bitCell ai hm cm 3,
    bitCell ai hm cm 4, bitCell ai hm cm 5, bitCell ai hm cm 6, bitCell ai hm cm 7,
    bitCell ai hm cm 8]⟩

/-- Bit masks of the win patterns, in the order of `winPatterns`: bit `i` stands
for cell `i`. -/
def lineMasks : List Nat := [7, 56, 448, 73, 146, 292, 273, 84]

/-- Winner of a position given by bit sets, the masks examined in order:
`some true` for the computer, `some false` for the human, `none` for no winner. -/
def bitWinnerLoop (hm cm : Nat) : List Nat → Option Bool
  | [] => none
  | m :: rest =>
    bif Nat.beq (cm &&& m) m then some true
    else bif Nat.beq (hm &&& m) m && Nat.beq (cm &&& m) 0 then some false
    else bitWinnerLoop hm cm rest

/-- The loop `bitWinnerLoop` over `lineMasks`, written out. -/
def bitWinner (hm cm : Nat) : Option Bool :=
  bif Nat.beq (cm &&& 7) 7 then some true
  else bif Nat.beq (hm &&& 7) 7 && Nat.beq (cm &&& 7) 0 then some false
  else bif Nat.beq (cm &&& 56) 56 then some true
  else bif Nat.beq (hm &&& 56) 56 && Nat.beq (cm &&& 56) 0 then some false
  else bif Nat.beq (cm &&& 448) 448 then some true
  else bif Nat.beq (hm &&& 448) 448 && Nat.beq (cm &&& 448) 0 then some false
  else bif Nat.beq (cm &&& 73) 73 then some true
  else bif Nat.beq (hm &&& 73) 73 && Nat.beq (cm &&& 73) 0 then some false
  else bif Nat.beq (cm &&& 146) 146 then some true
  else bif Nat.beq (hm &&& 146) 146 && Nat.beq (cm &&& 146) 0 then some false
  else bif Nat.beq (cm &&& 292) 292 then some true
  else bif Nat.beq (hm &&& 292) 292 && Nat.beq (cm &&& 292) 0 then some false
  else bif Nat.beq (cm &&& 273) 273 then some true
  else bif Nat.beq (hm &&& 273) 273 && Nat.beq (cm &&& 273) 0 then some false
  else bif Nat.beq (cm &&& 84) 84 then some true
  else bif Nat.beq (hm &&& 84) 84 && Nat.beq (cm &&& 84) 0 then some false
  else none

/-- The cell whose bit is `b` is held by neither player. -/
def bitFree (hm cm b : Nat) : Bool := Nat.beq ((hm ||| cm) &&& b) 0

/-- The test `f` holds at the bit of some cell; the centre is tried first, then
the corners, then the edges. -/
def anyCell (f : Nat → Bool) : Bool :=
  f 16 || (f 1 || (f 4 || (f 64 || (f 256 || (f 2 || (f 8 || (f 32 || f 128)))))))

/-- The test `f` holds at the bit of every cell. -/
def allCell (f : Nat → Bool) : Bool :=
  f 1 && (f 2 && (f 4 && (f 8 && (f 16 && (f 32 && (f 64 && (f 128 && f 256)))))))

/-- The search `atLeast` on a position given by bit sets. -/
def bitAtLeast : Nat → Nat → Nat → Bool → Int → Bool
  | 0, _, _, _, _ => false
  | fuel + 1, hm, cm, isMaximizing, v =>
    match bitWinner hm cm with
    | some true => decide (v ≤ 1)
    | some false => decide (v ≤ -1)
    | none =>
      bif Nat.beq (hm ||| cm) 511 then decide (v ≤ 0)
      else bif isMaximizing then
        anyCell (fun b => bitFree hm cm b && bitAtLeast fuel hm (cm ||| b) false v)
      else
        allCell (fun b => !bitFree hm cm b || bitAtLeast fuel (hm ||| b) cm true v)

/-- The search `atMost` on a position given by bit sets. -/
def bitAtMost : Nat → Nat → Nat → Bool → Int → Bool
  | 0, _, _, _, _ => false
  | fuel + 1, hm, cm, isMaximizing, v =>
    match bitWinner hm cm with
    | some true => decide (1 ≤ v)
    | some false => decide (-1 ≤ v)
    | none =>
      bif Nat.beq (hm ||| cm) 511 then decide (0 ≤ v)
      else bif isMaximizing then
        allCell (fun b => !bitFree hm cm b || bitAtMost fuel hm (cm ||| b) false v)
      else
        anyCell (fun b => bitFree hm cm b && bitAtMost fuel (hm ||| b) cm true v)

/-- The mark that a result of `bitWinner` stands for. -/
def winnerMark (ai : TicTacToeTree) : Option Bool → Char
  | some true => ai.computerPlayer
  | some false => ai.humanPlayer
  | none => EMPTY

/-- Variables of the loop of `playGame`: the board and `currentPlayer`. -/
structure Game where
  state : GameState
  currentPlayer : Char
deriving DecidableEq, Repr

/-- One pass through the body of `while (!state.isGameOver())` in `playGame`.
`input` is the number typed by the human (read on the human's turn) and `r` is
the value of `rand()` (read on the computer's turn).  The result is `none` when
the loop has ended or `findBestMove` has no result. -/
def playStep (human computer : Char) (g : Game) (input : Int) (r : Nat) : Option Game :=
  if g.state.isGameOver then none
  else if g.currentPlayer = human then
    if 0 ≤ input ∧ input < 9 ∧ g.state.cell input.toNat = EMPTY then
      some ⟨g.state.makeMove input.toNat human, computer⟩
    else some g
  else
    match (TicTacToeTree.mk human computer).findBestMove g.state r with
    | none => none
    | some move => some ⟨g.state.makeMove move computer, human⟩

/-- The loop of `playGame` run over a list of inputs, one per pass. -/
def playLoop (human computer : Char) : Game → List (Int × Nat) → Game
  | g, [] => g
  | g, (input, r) :: rest =>
    match playStep human computer g input r with
    | none => g
    | some g' => playLoop human computer g' rest

/-- Function `playGame` after the human has chosen the symbol `human`: the
computer takes the other symbol and `X` moves first. -/
def playGame (human : Char) (inputs : List (Int × Nat)) : Game :=
  playLoop human (if human = 'X' then 'O' else 'X') ⟨GameState.init, 'X'⟩ inputs

/-- A call of `makeMove` seen as an operation that may fail.  The body copies the
board and writes `newBoard[index]`, which is defined only for an index inside
the board; it makes no other check.  The result pairs the receiver as it is
after the call with the returned state. -/
def GameState.makeMoveCall (s : GameState) (index : Nat) (player : Char) :
    Option (GameState × GameState) :=
  if index < s.board.length then
    let newBoard := s.board
    some (s, ⟨newBoard.set index player⟩)
  else none

/-- No two completed win patterns are held by different marks. -/
def GameState.oneWinner (s : GameState) : Prop :=
  ∀ p ∈ GameState.winPatterns, ∀ q ∈ GameState.winPatterns,
    s.threeInRow p → s.threeInRow q → s.cell p.1 = s.cell q.1

/-- One move of alternating play: refused once the game is over or when the cell
is not a blank cell of the board; otherwise the mark of the player to move is
placed and the turn passes to the other of `X` and `O`. -/
def alternatingStep (g : Game) (move : Nat) : Option Game :=
  if g.state.isGameOver then none
  else if move < 9 ∧ g.state.cell move = EMPTY then
    some ⟨g.state.makeMove move g.currentPlayer, if g.currentPlayer = 'X' then 'O' else 'X'⟩
  else none

/-- A sequence of moves of alternating play from a given position; `none` when
one of the moves is refused. -/
def alternatingPlay : Game → List Nat → Option Game
  | g, [] => some g
  | g, move :: rest =>
    match alternatingStep g move with
    | none => none
    | some g' => alternatingPlay g' rest

/-- Invariant of the loop of `playGame`: the board has 9 cells, it is the turn
of one of the two players, and the score of the position for the side to move
is not a loss for the computer. -/
def GameInv (human computer : Char) (g : Game) : Prop :=
  g.state.board.length = 9 ∧ (g.currentPlayer = human ∨ g.currentPlayer = computer) ∧
    ∃ v, 0 ≤ v ∧ (TicTacToeTree.mk human computer).minimax g.state
      (decide (g.currentPlayer = computer)) = some v

/-! ## Board lemmas -/

namespace GameState

theorem cell_eq_getElem (s : GameState) (i : Nat) (h : i < s.board.length) :
    s.cell i = s.board[i] := by
  simp [cell, List.getD_eq_getElem?_getD, List.getElem?_eq_getElem h]

theorem length_makeMove (s : GameState) (i : Nat) (p : Char) :
    (s.makeMove i p).board.length = s.board.length := by
  simp [makeMove]

theorem cell_makeMove_same (s : GameState) (i : Nat) (p : Char) (h : i < s.board.length) :
    (s.makeMove i p).cell i = p := by
  simp [cell, makeMove, List.getD_eq_getElem?_getD, List.getElem?_set, h]

theorem cell_makeMove_other (s : GameState) (i j : Nat) (p : Char) (h : i ≠ j) :
    (s.makeMove i p).cell j = s.cell j := by
  simp [cell, makeMove, List.getD_eq_getElem?_getD, List.getElem?_set, h]

theorem getAvailableMovesLoop_eq_filter (s : GameState) (l : List Nat) :
    s.getAvailableMovesLoop l = l.filter (fun i => decide (s.cell i = EMPTY)) := by
  induction l with
  | nil => rfl
  | cons i rest ih =>
    by_cases h : s.cell i = EMPTY <;> simp [getAvailableMovesLoop, List.filter, h, ih]

theorem mem_getAvailableMoves (s : GameState) (i : Nat) :
    i ∈ s.getAvailableMoves ↔ i < 9 ∧ s.cell i = EMPTY := by
  simp [getAvailableMoves, getAvailableMovesLoop_eq_filter]

theorem getAvailableMoves_pairwise (s : GameState) :
    s.getAvailableMoves.Pairwise (· < ·) := by
  rw [getAvailableMoves, getAvailableMovesLoop_eq_filter]
  exact (List.pairwise_lt_range 9).filter _

theorem isFullLoop_iff (l : List Char) : isFullLoop l = true ↔ ∀ c ∈ l, c ≠ EMPTY := by
  induction l with
  | nil => simp [isFullLoop]
  | cons c rest ih =>
    by_cases h : c = EMPTY
    · simp [isFullLoop, h]
    · simp [isFullLoop, h, ih]

theorem isFull_iff_cells (s : GameState) (h9 : s.board.length = 9) :
    s.isFull = true ↔ ∀ i, i < 9 → s.cell i ≠ EMPTY := by
  rw [isFull, isFullLoop_iff]
  constructor
  · intro h i hi
    rw [cell_eq_getElem s i (by omega)]
    exact h _ (List.getElem_mem _)
  · intro h c hc
    obtain ⟨i, hi, rfl⟩ := List.getElem_of_mem hc
    rw [← cell_eq_getElem s i hi]
    exact h i (by omega)

theorem getAvailableMoves_eq_nil_iff (s : GameState) :
    s.getAvailableMoves = [] ↔ ∀ i, i < 9 → s.cell i ≠ EMPTY := by
  rw [List.eq_nil_iff_forall_not_mem]
  constructor
  · intro h i hi hc
    exact h i ((mem_getAvailableMoves s i).2 ⟨hi, hc⟩)
  · intro h i hm
    obtain ⟨hi, hc⟩ := (mem_getAvailableMoves s i).1 hm
    exact h i hi hc

theorem getAvailableMoves_ne_nil (s : GameState) (h9 : s.board.length = 9)
    (hf : s.isFull = false) : s.getAvailableMoves ≠ [] := by
  intro h
  rw [getAvailableMoves_eq_nil_iff, ← isFull_iff_cells s h9] at h
  simp [h] at hf

theorem isFull_iff_emptyCount (s : GameState) : s.isFull = true ↔ s.emptyCount = 0 := by
  rw [isFull, isFullLoop_iff, emptyCount, List.count_eq_zero]
  constructor
  · intro h hm
    exact h _ hm rfl
  · intro h c hc he
    exact h (he ▸ hc)

theorem count_set_blank (l : List Char) (i : Nat) (p : Char) (hi : i < l.length)
    (hc : l.getD i EMPTY = EMPTY) (hp : p ≠ EMPTY) :
    (l.set i p).count EMPTY + 1 = l.count EMPTY := by
  induction l generalizing i with
  | nil => simp at hi
  | cons a rest ih =>
    cases i with
    | zero =>
      simp at hc
      subst hc
      simp [List.count_cons, hp]
    | succ k =>
      simp at hi hc
      have := ih k hi (by simpa using hc)
      simp only [List.set_cons_succ, List.count_cons]
      omega

theorem lineWon_iff (s : GameState) (p : Nat × Nat × Nat) :
    s.lineWon p = true ↔ s.threeInRow p := by
  simp [lineWon, threeInRow, and_assoc]

theorem checkWinnerLoop_first (s : GameState) (pre : List (Nat × Nat × Nat))
    (p : Nat × Nat × Nat) (post : List (Nat × Nat × Nat))
    (hpre : ∀ q ∈ pre, ¬ s.threeInRow q) (hp : s.threeInRow p) :
    s.checkWinnerLoop (pre ++ p :: post) = s.cell p.1 := by
  induction pre with
  | nil => simp [checkWinnerLoop, (lineWon_iff s p).2 hp]
  | cons q rest ih =>
    have hq : ¬ s.lineWon q = true := fun h =>
      hpre q (List.mem_cons_self _ _) ((lineWon_iff s q).1 h)
    simp only [List.cons_append, checkWinnerLoop, if_neg hq]
    exact ih (fun k hk => hpre k (List.mem_cons_of_mem _ hk))

theorem checkWinnerLoop_split (s : GameState) (l : List (Nat × Nat × Nat)) :
    (s.checkWinnerLoop l = EMPTY ∧ ∀ q ∈ l, ¬ s.threeInRow q) ∨
      ∃ pre p post, l = pre ++ p :: post ∧ (∀ q ∈ pre, ¬ s.threeInRow q) ∧
        s.threeInRow p ∧ s.checkWinnerLoop l = s.cell p.1 := by
  induction l with
  | nil => exact Or.inl ⟨rfl, by simp⟩
  | cons q rest ih =>
    by_cases hq : s.lineWon q = true
    · right
      exact ⟨[], q, rest, rfl, by simp, (lineWon_iff s q).1 hq, by simp [checkWinnerLoop, hq]⟩
    · have hq' : ¬ s.threeInRow q := fun h => hq ((lineWon_iff s q).2 h)
      rcases ih with ⟨h1, h2⟩ | ⟨pre, p, post, h1, h2, h3, h4⟩
      · left
        refine ⟨by simp [checkWinnerLoop, hq, h1], ?_⟩
        intro k hk
        rcases List.mem_cons.1 hk with rfl | hk
        · exact hq'
        · exact h2 k hk
      · right
        refine ⟨q :: pre, p, post, by simp [h1], ?_, h3, by simp [checkWinnerLoop, hq, h4]⟩
        intro k hk
        rcases List.mem_cons.1 hk with rfl | hk
        · exact hq'
        · exact h2 k hk

theorem checkWinner_eq_empty_iff (s : GameState) :
    s.checkWinner = EMPTY ↔ ∀ p ∈ winPatterns, ¬ s.threeInRow p := by
  constructor
  · intro h
    rcases checkWinnerLoop_split s winPatterns with ⟨-, h2⟩ | ⟨pre, p, post, -, -, h3, h4⟩
    · exact h2
    · exact absurd (h4.symm.trans h) h3.1
  · intro h
    rcases checkWinnerLoop_split s winPatterns with ⟨h1, -⟩ | ⟨pre, p, post, h1, -, h3, -⟩
    · exact h1
    · exact absurd h3 (h p (by rw [h1]; simp))

theorem checkWinner_owner (s : GameState) (h : s.checkWinner ≠ EMPTY) :
    ∃ p ∈ winPatterns, s.threeInRow p ∧ s.cell p.1 = s.checkWinner ∧
      s.cell p.2.1 = s.checkWinner ∧ s.cell p.2.2 = s.checkWinner := by
  rcases checkWinnerLoop_split s winPatterns with ⟨h1, -⟩ | ⟨pre, p, post, h1, -, h3, h4⟩
  · exact absurd h1 h
  · have h4' : s.checkWinner = s.cell p.1 := h4
    refine ⟨p, by rw [h1]; simp, h3, h4'.symm, ?_, ?_⟩
    · rw [h4', h3.2.1]
    · rw [h4', h3.2.1, h3.2.2]

theorem isGameOver_eq_false (s : GameState) (h : ¬ s.isGameOver = true) :
    s.checkWinner = EMPTY ∧ s.isFull = false := by
  simpa [isGameOver] using h

theorem not_mem_board_iff (s : GameState) (h9 : s.board.length = 9) :
    EMPTY ∉ s.board ↔ ∀ i, i < 9 → s.cell i ≠ EMPTY := by
  rw [← isFull_iff_cells s h9, isFull, isFullLoop_iff]
  constructor
  · intro h c hc e
    exact h (e ▸ hc)
  · intro h hm
    exact h _ hm rfl

theorem cell_eq_empty_iff (s : GameState) (h9 : s.board.length = 9) (i : Nat) :
    (i < 9 ∧ s.cell i = EMPTY) ↔ s.board[i]? = some EMPTY := by
  constructor
  · rintro ⟨hi, hc⟩
    rw [cell_eq_getElem s i (by omega)] at hc
    rw [List.getElem?_eq_getElem (by omega), hc]
  · intro h
    obtain ⟨hi, hc⟩ := List.getElem?_eq_some.1 h
    exact ⟨by omega, by rw [cell_eq_getElem s i hi, hc]⟩

theorem emptyCount_makeMove (s : GameState) (i : Nat) (p : Char) (h9 : s.board.length = 9)
    (hm : i ∈ s.getAvailableMoves) (hp : p ≠ EMPTY) :
    (s.makeMove i p).emptyCount + 1 = s.emptyCount := by
  obtain ⟨hi, hc⟩ := (mem_getAvailableMoves s i).1 hm
  exact count_set_blank s.board i p (by omega) hc hp

end GameState

/-! ## The score loops -/

namespace TicTacToeTree

open GameState

theorem scoreLoop_congr (op : Int → Int → Int) (f g : Nat → Option Int) (l : List Nat)
    (b : Int) (h : ∀ m ∈ l, f m = g m) : scoreLoop op f b l = scoreLoop op g b l := by
  induction l generalizing b with
  | nil => rfl
  | cons m rest ih =>
    have hm := h m (List.mem_cons_self _ _)
    simp only [scoreLoop, hm]
    cases g m with
    | none => rfl
    | some w => exact ih _ (fun k hk => h k (List.mem_cons_of_mem _ hk))

theorem scoreLoop_mono (op : Int → Int → Int) (f g : Nat → Option Int) (l : List Nat)
    (b v : Int) (h : ∀ m ∈ l, ∀ w, f m = some w → g m = some w)
    (hv : scoreLoop op f b l = some v) : scoreLoop op g b l = some v := by
  induction l generalizing b with
  | nil => exact hv
  | cons m rest ih =>
    cases hf : f m with
    | none => simp [scoreLoop, hf] at hv
    | some w =>
      have hg := h m (List.mem_cons_self _ _) w hf
      simp only [scoreLoop, hf] at hv
      simp only [scoreLoop, hg]
      exact ih _ (fun k hk => h k (List.mem_cons_of_mem _ hk)) hv

theorem scoreLoop_isSome (op : Int → Int → Int) (f : Nat → Option Int) (l : List Nat)
    (b : Int) (h : ∀ m ∈ l, ∃ w, f m = some w) : ∃ v, scoreLoop op f b l = some v := by
  induction l generalizing b with
  | nil => exact ⟨b, rfl⟩
  | cons m rest ih =>
    obtain ⟨w, hw⟩ := h m (List.mem_cons_self _ _)
    simp only [scoreLoop, hw]
    exact ih _ (fun k hk => h k (List.mem_cons_of_mem _ hk))

theorem scoreLoop_max_spec (f : Nat → Option Int) (l : List Nat) (b v : Int)
    (hv : scoreLoop max f b l = some v) :
    b ≤ v ∧ (∀ m ∈ l, ∃ w, f m = some w ∧ w ≤ v) ∧ (v = b ∨ ∃ m ∈ l, f m = some v) := by
  induction l generalizing b with
  | nil =>
    simp only [scoreLoop, Option.some.injEq] at hv
    subst hv
    simp
  | cons m rest ih =>
    cases hf : f m with
    | none => simp [scoreLoop, hf] at hv
    | some w =>
      simp only [scoreLoop, hf] at hv
      obtain ⟨h1, h2, h3⟩ := ih _ hv
      refine ⟨le_trans (le_max_left _ _) h1, ?_, ?_⟩
      · intro k hk
        rcases List.mem_cons.1 hk with rfl | hk
        · exact ⟨w, hf, le_trans (le_max_right _ _) h1⟩
        · exact h2 k hk
      · rcases h3 with h3 | ⟨k, hk, hkv⟩
        · rcases le_total b w with hbw | hbw
          · right
            refine ⟨m, List.mem_cons_self _ _, ?_⟩
            rw [hf, h3, max_eq_right hbw]
          · left
            rw [h3, max_eq_left hbw]
        · exact Or.inr ⟨k, List.mem_cons_of_mem _ hk, hkv⟩

theorem scoreLoop_min_spec (f : Nat → Option Int) (l : List Nat) (b v : Int)
    (hv : scoreLoop min f b l = some v) :
    v ≤ b ∧ (∀ m ∈ l, ∃ w, f m = some w ∧ v ≤ w) ∧ (v = b ∨ ∃ m ∈ l, f m = some v) := by
  induction l generalizing b with
  | nil =>
    simp only [scoreLoop, Option.some.injEq] at hv
    subst hv
    simp
  | cons m rest ih =>
    cases hf : f m with
    | none => simp [scoreLoop, hf] at hv
    | some w =>
      simp only [scoreLoop, hf] at hv
      obtain ⟨h1, h2, h3⟩ := ih _ hv
      refine ⟨le_trans h1 (min_le_left _ _), ?_, ?_⟩
      · intro k hk
        rcases List.mem_cons.1 hk with rfl | hk
        · exact ⟨w, hf, le_trans h1 (min_le_right _ _)⟩
        · exact h2 k hk
      · rcases h3 with h3 | ⟨k, hk, hkv⟩
        · rcases le_total b w with hbw | hbw
          · left
            rw [h3, min_eq_left hbw]
          · right
            refine ⟨m, List.mem_cons_self _ _, ?_⟩
            rw [hf, h3, min_eq_right hbw]
        · exact Or.inr ⟨k, List.mem_cons_of_mem _ hk, hkv⟩

/-! ## The recursion of `minimax` -/

theorem minimaxFuel_succ (ai : TicTacToeTree) (n : Nat) (s : GameState) (t : Bool) :
    ai.minimaxFuel (n + 1) s t =
      if s.checkWinner = ai.computerPlayer then some 1
      else if s.checkWinner = ai.humanPlayer then some (-1)
      else if s.isFull then some 0
      else if t then
        scoreLoop max (fun move => ai.minimaxFuel n (s.makeMove move ai.computerPlayer) false)
          INT_MIN s.getAvailableMoves
      else
        scoreLoop min (fun move => ai.minimaxFuel n (s.makeMove move ai.humanPlayer) true)
          INT_MAX s.getAvailableMoves := rfl

theorem minimaxFuel_mono_succ (ai : TicTacToeTree) (n : Nat) (s : GameState) (t : Bool)
    (v : Int) (h : ai.minimaxFuel n s t = some v) : ai.minimaxFuel (n + 1) s t = some v := by
  induction n generalizing s t v with
  | zero => simp [minimaxFuel] at h
  | succ n ih =>
    rw [minimaxFuel_succ] at h ⊢
    split_ifs at h ⊢
    · exact h
    · exact h
    · exact h
    · exact scoreLoop_mono _ _ _ _ _ _ (fun m _ w hw => ih _ _ _ hw) h
    · exact scoreLoop_mono _ _ _ _ _ _ (fun m _ w hw => ih _ _ _ hw) h

theorem minimaxFuel_mono (ai : TicTacToeTree) (n k : Nat) (s : GameState) (t : Bool)
    (v : Int) (hnk : n ≤ k) (h : ai.minimaxFuel n s t = some v) :
    ai.minimaxFuel k s t = some v := by
  induction k, hnk using Nat.le_induction with
  | base => exact h
  | succ k _ ih => exact minimaxFuel_mono_succ ai k s t v ih

theorem minimaxFuel_total (ai : TicTacToeTree) (hh : ai.humanPlayer ≠ EMPTY)
    (hc : ai.computerPlayer ≠ EMPTY) (n : Nat) (s : GameState) (t : Bool)
    (h9 : s.board.length = 9) (hn : s.emptyCount < n) :
    ∃ v, ai.minimaxFuel n s t = some v := by
  induction n generalizing s t with
  | zero => omega
  | succ n ih =>
    rw [minimaxFuel_succ]
    split_ifs
    · exact ⟨_, rfl⟩
    · exact ⟨_, rfl⟩
    · exact ⟨_, rfl⟩
    · apply scoreLoop_isSome
      intro m hm
      have := emptyCount_makeMove s m _ h9 hm hc
      exact ih _ _ (by rw [length_makeMove]; exact h9) (by omega)
    · apply scoreLoop_isSome
      intro m hm
      have := emptyCount_makeMove s m _ h9 hm hh
      exact ih _ _ (by rw [length_makeMove]; exact h9) (by omega)

theorem minimaxFuel_eq_minimax (ai : TicTacToeTree) (hh : ai.humanPlayer ≠ EMPTY)
    (hc : ai.computerPlayer ≠ EMPTY) (n : Nat) (s : GameState) (t : Bool)
    (h9 : s.board.length = 9) (hn : s.emptyCount < n) :
    ai.minimaxFuel n s t = ai.minimax s t := by
  obtain ⟨v, hv⟩ := minimaxFuel_total ai hh hc (s.emptyCount + 1) s t h9 (by omega)
  rw [minimax, hv]
  exact minimaxFuel_mono ai _ n s t v (by omega) hv

theorem minimax_isSome (ai : TicTacToeTree) (hh : ai.humanPlayer ≠ EMPTY)
    (hc : ai.computerPlayer ≠ EMPTY) (s : GameState) (t : Bool)
    (h9 : s.board.length = 9) : ∃ v, ai.minimax s t = some v :=
  minimaxFuel_total ai hh hc _ s t h9 (by omega)

theorem minimaxFuel_range (ai : TicTacToeTree) (n : Nat) (s : GameState) (t : Bool) (v : Int)
    (h9 : s.board.length = 9) (h : ai.minimaxFuel n s t = some v) : -1 ≤ v ∧ v ≤ 1 := by
  induction n generalizing s t v with
  | zero => simp [minimaxFuel] at h
  | succ n ih =>
    rw [minimaxFuel_succ] at h
    split_ifs at h with h1 h2 h3 h4
    · simp only [Option.some.injEq] at h; omega
    · simp only [Option.some.injEq] at h; omega
    · simp only [Option.some.injEq] at h; omega
    · have hf : s.isFull = false := by simpa using h3
      obtain ⟨m0, hm0⟩ := List.exists_mem_of_ne_nil _ (getAvailableMoves_ne_nil s h9 hf)
      obtain ⟨-, hall, hex⟩ := scoreLoop_max_spec _ _ _ _ h
      obtain ⟨w, hw, hwv⟩ := hall m0 hm0
      have hr := ih _ _ w (by rw [length_makeMove]; exact h9) hw
      rcases hex with hex | ⟨m, _, hmv⟩
      · rw [hex, INT_MIN] at hwv; omega
      · exact ih _ _ v (by rw [length_makeMove]; exact h9) hmv
    · have hf : s.isFull = false := by simpa using h3
      obtain ⟨m0, hm0⟩ := List.exists_mem_of_ne_nil _ (getAvailableMoves_ne_nil s h9 hf)
      obtain ⟨-, hall, hex⟩ := scoreLoop_min_spec _ _ _ _ h
      obtain ⟨w, hw, hwv⟩ := hall m0 hm0
      have hr := ih _ _ w (by rw [length_makeMove]; exact h9) hw
      rcases hex with hex | ⟨m, _, hmv⟩
      · rw [hex, INT_MAX] at hwv; omega
      · exact ih _ _ v (by rw [length_makeMove]; exact h9) hmv

theorem minimax_range (ai : TicTacToeTree) (s : GameState) (t : Bool) (v : Int)
    (h9 : s.board.length = 9) (h : ai.minimax s t = some v) : -1 ≤ v ∧ v ≤ 1 :=
  minimaxFuel_range ai _ s t v h9 h

theorem minimax_computer_wins (ai : TicTacToeTree) (s : GameState) (t : Bool)
    (h : s.checkWinner = ai.computerPlayer) : ai.minimax s t = some 1 := by
  rw [minimax, minimaxFuel_succ, if_pos h]

theorem minimax_human_wins (ai : TicTacToeTree) (s : GameState) (t : Bool)
    (h1 : s.checkWinner ≠ ai.computerPlayer) (h2 : s.checkWinner = ai.humanPlayer) :
    ai.minimax s t = some (-1) := by
  rw [minimax, minimaxFuel_succ, if_neg h1, if_pos h2]

theorem minimax_full (ai : TicTacToeTree) (s : GameState) (t : Bool)
    (h1 : s.checkWinner ≠ ai.computerPlayer) (h2 : s.checkWinner ≠ ai.humanPlayer)
    (h3 : s.isFull = true) : ai.minimax s t = some 0 := by
  rw [minimax, minimaxFuel_succ, if_neg h1, if_neg h2, if_pos h3]

theorem minimax_step_max (ai : TicTacToeTree) (hh : ai.humanPlayer ≠ EMPTY)
    (hc : ai.computerPlayer ≠ EMPTY) (s : GameState) (h9 : s.board.length = 9)
    (h1 : s.checkWinner ≠ ai.computerPlayer) (h2 : s.checkWinner ≠ ai.humanPlayer)
    (h3 : s.isFull = false) :
    ai.minimax s true =
      scoreLoop max (fun move => ai.minimax (s.makeMove move ai.computerPlayer) false)
        INT_MIN s.getAvailableMoves := by
  rw [minimax, minimaxFuel_succ, if_neg h1, if_neg h2, if_neg (by simp [h3]), if_pos rfl]
  apply scoreLoop_congr
  intro m hm
  have := emptyCount_makeMove s m _ h9 hm hc
  exact minimaxFuel_eq_minimax ai hh hc _ _ _ (by rw [length_makeMove]; exact h9) (by omega)

theorem minimax_step_min (ai : TicTacToeTree) (hh : ai.humanPlayer ≠ EMPTY)
    (hc : ai.computerPlayer ≠ EMPTY) (s : GameState) (h9 : s.board.length = 9)
    (h1 : s.checkWinner ≠ ai.computerPlayer) (h2 : s.checkWinner ≠ ai.humanPlayer)
    (h3 : s.isFull = false) :
    ai.minimax s false =
      scoreLoop min (fun move => ai.minimax (s.makeMove move ai.humanPlayer) true)
        INT_MAX s.getAvailableMoves := by
  rw [minimax, minimaxFuel_succ, if_neg h1, if_neg h2, if_neg (by simp [h3]),
    if_neg (by simp)]
  apply scoreLoop_congr
  intro m hm
  have := emptyCount_makeMove s m _ h9 hm hh
  exact minimaxFuel_eq_minimax ai hh hc _ _ _ (by rw [length_makeMove]; exact h9) (by omega)

/-- The loop `scoreLoop max` over the children of a board with a blank cell
returns the largest child score, which some move attains. -/
theorem scoreLoop_max_children (ai : TicTacToeTree) (hh : ai.humanPlayer ≠ EMPTY)
    (hc : ai.computerPlayer ≠ EMPTY) (s : GameState) (h9 : s.board.length = 9)
    (hne : s.getAvailableMoves ≠ []) :
    ∃ v, scoreLoop max (fun move => ai.minimax (s.makeMove move ai.computerPlayer) false)
          INT_MIN s.getAvailableMoves = some v ∧
      (∃ m ∈ s.getAvailableMoves,
        ai.minimax (s.makeMove m ai.computerPlayer) false = some v) ∧
      ∀ m ∈ s.getAvailableMoves,
        ∃ w, ai.minimax (s.makeMove m ai.computerPlayer) false = some w ∧ w ≤ v := by
  obtain ⟨v, hv⟩ := scoreLoop_isSome max
    (fun move => ai.minimax (s.makeMove move ai.computerPlayer) false) s.getAvailableMoves
    INT_MIN (fun m _ => minimax_isSome ai hh hc _ _ (by rw [length_makeMove]; exact h9))
  obtain ⟨-, hall, hex⟩ := scoreLoop_max_spec _ _ _ _ hv
  refine ⟨v, hv, ?_, hall⟩
  rcases hex with hex | hex
  · obtain ⟨m0, hm0⟩ := List.exists_mem_of_ne_nil _ hne
    obtain ⟨w, hw, hwv⟩ := hall m0 hm0
    have hr := minimax_range ai _ _ w (by rw [length_makeMove]; exact h9) hw
    rw [hex, INT_MIN] at hwv
    omega
  · exact hex

theorem scoreLoop_min_children (ai : TicTacToeTree) (hh : ai.humanPlayer ≠ EMPTY)
    (hc : ai.computerPlayer ≠ EMPTY) (s : GameState) (h9 : s.board.length = 9)
    (hne : s.getAvailableMoves ≠ []) :
    ∃ v, scoreLoop min (fun move => ai.minimax (s.makeMove move ai.humanPlayer) true)
          INT_MAX s.getAvailableMoves = some v ∧
      (∃ m ∈ s.getAvailableMoves,
        ai.minimax (s.makeMove m ai.humanPlayer) true = some v) ∧
      ∀ m ∈ s.getAvailableMoves,
        ∃ w, ai.minimax (s.makeMove m ai.humanPlayer) true = some w ∧ v ≤ w := by
  obtain ⟨v, hv⟩ := scoreLoop_isSome min
    (fun move => ai.minimax (s.makeMove move ai.humanPlayer) true) s.getAvailableMoves
    INT_MAX (fun m _ => minimax_isSome ai hh hc _ _ (by rw [length_makeMove]; exact h9))
  obtain ⟨-, hall, hex⟩ := scoreLoop_min_spec _ _ _ _ hv
  refine ⟨v, hv, ?_, hall⟩
  rcases hex with hex | hex
  · obtain ⟨m0, hm0⟩ := List.exists_mem_of_ne_nil _ hne
    obtain ⟨w, hw, hwv⟩ := hall m0 hm0
    have hr := minimax_range ai _ _ w (by rw [length_makeMove]; exact h9) hw
    rw [hex, INT_MAX] at hwv
    omega
  · exact hex

/-! ## Best-move selection -/

theorem findBestMoveLoop_eq (ai : TicTacToeTree) (s : GameState) (l : List Nat)
    (best : Int) (bm : List Nat)
    (h : ∀ m ∈ l, ∃ w, ai.minimax (s.makeMove m ai.computerPlayer) false = some w) :
    ∃ best', scoreLoop max (fun move => ai.minimax (s.makeMove move ai.computerPlayer) false)
          best l = some best' ∧
      ai.findBestMoveLoop s best bm l =
        some (best', (if best' = best then bm else []) ++
          l.filter (fun m =>
            decide (ai.minimax (s.makeMove m ai.computerPlayer) false = some best'))) := by
  induction l generalizing best bm with
  | nil => exact ⟨best, rfl, by simp [findBestMoveLoop]⟩
  | cons m rest ih =>
    obtain ⟨w, hw⟩ := h m (List.mem_cons_self _ _)
    have hrest := fun k hk => h k (List.mem_cons_of_mem m hk)
    simp only [scoreLoop, findBestMoveLoop, hw]
    by_cases h1 : w > best
    · obtain ⟨b', hb1, hb2⟩ := ih w [m] hrest
      have hle := (scoreLoop_max_spec _ _ _ _ hb1).1
      refine ⟨b', by rw [max_eq_right (le_of_lt h1)]; exact hb1, ?_⟩
      rw [if_pos h1, hb2, if_neg (by omega : ¬ b' = best)]
      by_cases h2 : b' = w
      · subst h2; simp [List.filter, hw]
      · have h3 : ¬ w = b' := fun e => h2 e.symm
        simp [List.filter, hw, h2, h3]
    · by_cases h2 : w = best
      · subst h2
        obtain ⟨b', hb1, hb2⟩ := ih w (bm ++ [m]) hrest
        refine ⟨b', by rw [max_self]; exact hb1, ?_⟩
        rw [if_neg h1, if_pos rfl, hb2]
        by_cases h3 : b' = w
        · subst h3; simp [List.filter, hw]
        · have h4 : ¬ w = b' := fun e => h3 e.symm
          simp [List.filter, hw, h3, h4]
      · obtain ⟨b', hb1, hb2⟩ := ih best bm hrest
        have hle := (scoreLoop_max_spec _ _ _ _ hb1).1
        refine ⟨b', by rw [max_eq_left (by omega)]; exact hb1, ?_⟩
        rw [if_neg h1, if_neg h2, hb2]
        have h4 : ¬ w = b' := by omega
        simp [List.filter, hw, h4]

/-- The moves kept in `bestMoves` at the end of `findBestMove`: those whose child
score equals `best`, in the order of `getAvailableMoves`. -/
theorem findBestMove_eq (ai : TicTacToeTree) (hh : ai.humanPlayer ≠ EMPTY)
    (hc : ai.computerPlayer ≠ EMPTY) (s : GameState) (h9 : s.board.length = 9)
    (hne : s.getAvailableMoves ≠ []) (r : Nat) :
    ∃ best tied, scoreLoop max
          (fun move => ai.minimax (s.makeMove move ai.computerPlayer) false)
          INT_MIN s.getAvailableMoves = some best ∧
      tied = s.getAvailableMoves.filter (fun m =>
        decide (ai.minimax (s.makeMove m ai.computerPlayer) false = some best)) ∧
      tied ≠ [] ∧ ai.findBestMove s r = tied[r % tied.length]? := by
  obtain ⟨best, hb1, hb2⟩ := findBestMoveLoop_eq ai s s.getAvailableMoves INT_MIN []
    (fun m _ => minimax_isSome ai hh hc _ _ (by rw [length_makeMove]; exact h9))
  obtain ⟨v, hv, ⟨m, hm, hmv⟩, -⟩ := scoreLoop_max_children ai hh hc s h9 hne
  rw [hb1, Option.some.injEq] at hv
  subst hv
  have hmem : m ∈ s.getAvailableMoves.filter (fun m =>
      decide (ai.minimax (s.makeMove m ai.computerPlayer) false = some best)) := by
    simp [List.mem_filter, hm, hmv]
  have hnil := List.ne_nil_of_mem hmem
  refine ⟨best, _, hb1, rfl, hnil, ?_⟩
  rw [findBestMove, hb2]
  simp only [ite_self, List.nil_append]
  rw [if_neg (by simpa using hnil)]

/-- The move returned by `findBestMove` is an available move whose child score is
the value `best` computed by the maximizing loop over the children. -/
theorem findBestMove_mem (ai : TicTacToeTree) (hh : ai.humanPlayer ≠ EMPTY)
    (hc : ai.computerPlayer ≠ EMPTY) (s : GameState) (h9 : s.board.length = 9)
    (hne : s.getAvailableMoves ≠ []) (r : Nat) :
    ∃ m best, ai.findBestMove s r = some m ∧ m ∈ s.getAvailableMoves ∧
      ai.minimax (s.makeMove m ai.computerPlayer) false = some best ∧
      scoreLoop max (fun move => ai.minimax (s.makeMove move ai.computerPlayer) false)
        INT_MIN s.getAvailableMoves = some best := by
  obtain ⟨best, tied, hb, htied, hnil, hfm⟩ := findBestMove_eq ai hh hc s h9 hne r
  have hlt : r % tied.length < tied.length := Nat.mod_lt _ (List.length_pos.2 hnil)
  obtain ⟨x, hx⟩ : ∃ x, tied[r % tied.length]? = some x :=
    ⟨_, List.getElem?_eq_getElem hlt⟩
  have hmem : x ∈ tied := List.getElem?_mem hx
  rw [hx] at hfm
  rw [htied, List.mem_filter] at hmem
  exact ⟨x, best, hfm, hmem.1, by simpa using hmem.2, hb⟩

/-! ## Renaming the marks -/

theorem cell_rename (σ : Char → Char) (h0 : σ EMPTY = EMPTY) (s : GameState) (i : Nat) :
    (s.rename σ).cell i = σ (s.cell i) := by
  have := List.getD_map s.board EMPTY (n := i) σ
  rw [h0] at this
  exact this

theorem lineWon_rename (σ : Char → Char) (hσ : Function.Injective σ) (h0 : σ EMPTY = EMPTY)
    (s : GameState) (p : Nat × Nat × Nat) : (s.rename σ).lineWon p = s.lineWon p := by
  have he : ∀ a, σ a = EMPTY ↔ a = EMPTY := fun a =>
    ⟨fun h => hσ (h.trans h0.symm), fun h => h ▸ h0⟩
  simp only [lineWon, cell_rename σ h0, ne_eq, he, hσ.eq_iff]

theorem checkWinnerLoop_rename (σ : Char → Char) (hσ : Function.Injective σ)
    (h0 : σ EMPTY = EMPTY) (s : GameState) (l : List (Nat × Nat × Nat)) :
    (s.rename σ).checkWinnerLoop l = σ (s.checkWinnerLoop l) := by
  induction l with
  | nil => exact h0.symm
  | cons p rest ih =>
    simp only [checkWinnerLoop, lineWon_rename σ hσ h0, cell_rename σ h0, ih]
    split_ifs <;> rfl

theorem checkWinner_rename (σ : Char → Char) (hσ : Function.Injective σ)
    (h0 : σ EMPTY = EMPTY) (s : GameState) :
    (s.rename σ).checkWinner = σ s.checkWinner :=
  checkWinnerLoop_rename σ hσ h0 s winPatterns

theorem isFull_rename (σ : Char → Char) (hσ : Function.Injective σ) (h0 : σ EMPTY = EMPTY)
    (s : GameState) : (s.rename σ).isFull = s.isFull := by
  have he : ∀ a, σ a = EMPTY ↔ a = EMPTY := fun a =>
    ⟨fun h => hσ (h.trans h0.symm), fun h => h ▸ h0⟩
  rw [Bool.eq_iff_iff, isFull, isFull, isFullLoop_iff, isFullLoop_iff]
  simp [rename, he]

theorem getAvailableMoves_rename (σ : Char → Char) (hσ : Function.Injective σ)
    (h0 : σ EMPTY = EMPTY) (s : GameState) :
    (s.rename σ).getAvailableMoves = s.getAvailableMoves := by
  have he : ∀ a, σ a = EMPTY ↔ a = EMPTY := fun a =>
    ⟨fun h => hσ (h.trans h0.symm), fun h => h ▸ h0⟩
  simp only [getAvailableMoves, getAvailableMovesLoop_eq_filter, cell_rename σ h0, he]

theorem makeMove_rename (σ : Char → Char) (s : GameState) (i : Nat) (p : Char) :
    (s.rename σ).makeMove i (σ p) = (s.makeMove i p).rename σ := by
  simp [makeMove, rename, List.map_set]

theorem emptyCount_rename (σ : Char → Char) (hσ : Function.Injective σ)
    (h0 : σ EMPTY = EMPTY) (s : GameState) : (s.rename σ).emptyCount = s.emptyCount := by
  have := List.count_map_of_injective s.board σ hσ EMPTY
  rw [h0] at this
  exact this

theorem minimaxFuel_rename (σ : Char → Char) (hσ : Function.Injective σ)
    (h0 : σ EMPTY = EMPTY) (h c : Char) (n : Nat) (s : GameState) (t : Bool) :
    (TicTacToeTree.mk (σ h) (σ c)).minimaxFuel n (s.rename σ) t =
      (TicTacToeTree.mk h c).minimaxFuel n s t := by
  induction n generalizing s t with
  | zero => rfl
  | succ n ih =>
    rw [minimaxFuel_succ, minimaxFuel_succ]
    simp only [checkWinner_rename σ hσ h0, isFull_rename σ hσ h0,
      getAvailableMoves_rename σ hσ h0, hσ.eq_iff, makeMove_rename, ih]

theorem minimax_rename (σ : Char → Char) (hσ : Function.Injective σ)
    (h0 : σ EMPTY = EMPTY) (h c : Char) (s : GameState) (t : Bool) :
    (TicTacToeTree.mk (σ h) (σ c)).minimax (s.rename σ) t =
      (TicTacToeTree.mk h c).minimax s t := by
  rw [minimax, minimax, emptyCount_rename σ hσ h0, minimaxFuel_rename σ hσ h0]

/-- Any two distinct non-blank marks are the images of `X` and `O` under an
injective renaming that fixes the blank. -/
theorem exists_renaming (h c : Char) (hh : h ≠ EMPTY) (hc : c ≠ EMPTY) (hd : h ≠ c) :
    ∃ σ : Char → Char, Function.Injective σ ∧ σ EMPTY = EMPTY ∧ σ 'X' = h ∧ σ 'O' = c := by
  have hX : EMPTY ≠ 'X' := by decide
  have hO : EMPTY ≠ 'O' := by decide
  have hXO : ('X' : Char) ≠ 'O' := by decide
  let σ1 : Equiv.Perm Char := Equiv.swap 'X' h
  let σ2 : Equiv.Perm Char := Equiv.swap (σ1 'O') c
  have e1 : σ1 EMPTY = EMPTY := Equiv.swap_apply_of_ne_of_ne hX (Ne.symm hh)
  have e2 : σ1 'X' = h := Equiv.swap_apply_left _ _
  have n1 : σ1 'O' ≠ EMPTY := fun e => hO (σ1.injective (e1.trans e.symm))
  have n2 : σ1 'O' ≠ h := fun e => hXO (σ1.injective (e2.trans e.symm))
  refine ⟨fun x => σ2 (σ1 x), σ2.injective.comp σ1.injective, ?_, ?_, ?_⟩
  · show σ2 (σ1 EMPTY) = EMPTY
    rw [e1]
    exact Equiv.swap_apply_of_ne_of_ne (Ne.symm n1) (Ne.symm hc)
  · show σ2 (σ1 'X') = h
    rw [e2]
    exact Equiv.swap_apply_of_ne_of_ne (Ne.symm n2) hd
  · exact Equiv.swap_apply_left _ _

/-! ## Exchanging the two roles -/

theorem scoreLoop_max_unique (f : Nat → Option Int) (l : List Nat) (b v : Int)
    (hall : ∀ m ∈ l, ∃ w, f m = some w ∧ w ≤ v) (hex : ∃ m ∈ l, f m = some v)
    (hb : b ≤ v) : scoreLoop max f b l = some v := by
  obtain ⟨u, hu⟩ := scoreLoop_isSome max f l b (fun m hm => (hall m hm).imp fun _ h => h.1)
  obtain ⟨h1, h2, h3⟩ := scoreLoop_max_spec f l b u hu
  obtain ⟨m, hm, hmv⟩ := hex
  obtain ⟨w, hw, hwu⟩ := h2 m hm
  rw [hmv, Option.some.injEq] at hw
  have hle : u ≤ v := by
    rcases h3 with h3 | ⟨k, hk, hku⟩
    · omega
    · obtain ⟨w', hw', hwv⟩ := hall k hk
      rw [hku, Option.some.injEq] at hw'
      omega
  rw [hu, Option.some.injEq]
  omega

theorem scoreLoop_min_unique (f : Nat → Option Int) (l : List Nat) (b v : Int)
    (hall : ∀ m ∈ l, ∃ w, f m = some w ∧ v ≤ w) (hex : ∃ m ∈ l, f m = some v)
    (hb : v ≤ b) : scoreLoop min f b l = some v := by
  obtain ⟨u, hu⟩ := scoreLoop_isSome min f l b (fun m hm => (hall m hm).imp fun _ h => h.1)
  obtain ⟨h1, h2, h3⟩ := scoreLoop_min_spec f l b u hu
  obtain ⟨m, hm, hmv⟩ := hex
  obtain ⟨w, hw, hwu⟩ := h2 m hm
  rw [hmv, Option.some.injEq] at hw
  have hle : v ≤ u := by
    rcases h3 with h3 | ⟨k, hk, hku⟩
    · omega
    · obtain ⟨w', hw', hwv⟩ := hall k hk
      rw [hku, Option.some.injEq] at hw'
      omega
  rw [hu, Option.some.injEq]
  omega

theorem minimaxFuel_swap (a b : Char) (hab : a ≠ b) (n : Nat) (s : GameState) (t : Bool)
    (v : Int) (h9 : s.board.length = 9)
    (h : (TicTacToeTree.mk a b).minimaxFuel n s t = some v) :
    (TicTacToeTree.mk b a).minimaxFuel n s (!t) = some (-v) := by
  induction n generalizing s t v with
  | zero => simp [minimaxFuel] at h
  | succ n ih =>
    have hr := minimaxFuel_range _ _ _ _ _ h9 h
    rw [minimaxFuel_succ] at h ⊢
    simp only at h ⊢
    by_cases h1 : s.checkWinner = b
    · have h1' : s.checkWinner ≠ a := fun e => hab (e.symm.trans h1)
      rw [if_pos h1, Option.some.injEq] at h
      rw [if_neg h1', if_pos h1, ← h]
    · rw [if_neg h1] at h
      by_cases h2 : s.checkWinner = a
      · rw [if_pos h2, Option.some.injEq] at h
        rw [if_pos h2, ← h]
        rfl
      · rw [if_neg h2] at h
        rw [if_neg h2, if_neg h1]
        by_cases h3 : s.isFull = true
        · rw [if_pos h3, Option.some.injEq] at h
          rw [if_pos h3, ← h]
          rfl
        · rw [if_neg h3] at h
          rw [if_neg h3]
          have h9' : ∀ m p, (s.makeMove m p).board.length = 9 := fun m p => by
            rw [length_makeMove]; exact h9
          cases t with
          | true =>
            simp only [if_true, Bool.not_true, Bool.false_eq_true, if_false] at h ⊢
            obtain ⟨-, hall, hex⟩ := scoreLoop_max_spec _ _ _ _ h
            apply scoreLoop_min_unique
            · intro m hm
              obtain ⟨w, hw, hwv⟩ := hall m hm
              exact ⟨-w, ih _ _ _ (h9' _ _) hw, by omega⟩
            · rcases hex with hex | ⟨m, hm, hmv⟩
              · rw [hex, INT_MIN] at hr; omega
              · exact ⟨m, hm, ih _ _ _ (h9' _ _) hmv⟩
            · rw [INT_MAX]; omega
          | false =>
            simp only [Bool.false_eq_true, if_false, Bool.not_false, if_true] at h ⊢
            obtain ⟨-, hall, hex⟩ := scoreLoop_min_spec _ _ _ _ h
            apply scoreLoop_max_unique
            · intro m hm
              obtain ⟨w, hw, hwv⟩ := hall m hm
              exact ⟨-w, ih _ _ _ (h9' _ _) hw, by omega⟩
            · rcases hex with hex | ⟨m, hm, hmv⟩
              · rw [hex, INT_MAX] at hr; omega
              · exact ⟨m, hm, ih _ _ _ (h9' _ _) hmv⟩
            · rw [INT_MIN]; omega

theorem minimax_swap (a b : Char) (hab : a ≠ b) (s : GameState) (t : Bool) (v : Int)
    (h9 : s.board.length = 9) (h : (TicTacToeTree.mk a b).minimax s t = some v) :
    (TicTacToeTree.mk b a).minimax s (!t) = some (-v) :=
  minimaxFuel_swap a b hab _ s t v h9 h

/-! ## Soundness of the bound searches -/

theorem board_eq_of_length (s : GameState) (h9 : s.board.length = 9) :
    ∃ c0 c1 c2 c3 c4 c5 c6 c7 c8, s = ⟨[c0, c1, c2, c3, c4, c5, c6, c7, c8]⟩ := by
  rcases s with ⟨l⟩
  rcases l with _ | ⟨c0, _ | ⟨c1, _ | ⟨c2, _ | ⟨c3, _ | ⟨c4, _ | ⟨c5, _ | ⟨c6, _ |
    ⟨c7, _ | ⟨c8, _ | ⟨c9, l⟩⟩⟩⟩⟩⟩⟩⟩⟩⟩ <;> simp at h9
  exact ⟨c0, c1, c2, c3, c4, c5, c6, c7, c8, rfl⟩

theorem atLeast_length (ai : TicTacToeTree) (n : Nat) (s : GameState) (t : Bool) (v : Int)
    (h : ai.atLeast n s t v = true) : s.board.length = 9 := by
  rcases s with ⟨l⟩
  cases n with
  | zero => simp [atLeast] at h
  | succ n =>
    rcases l with _ | ⟨c0, _ | ⟨c1, _ | ⟨c2, _ | ⟨c3, _ | ⟨c4, _ | ⟨c5, _ | ⟨c6, _ |
      ⟨c7, _ | ⟨c8, _ | ⟨c9, l⟩⟩⟩⟩⟩⟩⟩⟩⟩⟩ <;> first | rfl | simp [atLeast] at h

theorem atMost_length (ai : TicTacToeTree) (n : Nat) (s : GameState) (t : Bool) (v : Int)
    (h : ai.atMost n s t v = true) : s.board.length = 9 := by
  rcases s with ⟨l⟩
  cases n with
  | zero => simp [atMost] at h
  | succ n =>
    rcases l with _ | ⟨c0, _ | ⟨c1, _ | ⟨c2, _ | ⟨c3, _ | ⟨c4, _ | ⟨c5, _ | ⟨c6, _ |
      ⟨c7, _ | ⟨c8, _ | ⟨c9, l⟩⟩⟩⟩⟩⟩⟩⟩⟩⟩ <;> first | rfl | simp [atMost] at h

theorem atLeast_succ (ai : TicTacToeTree) (n : Nat) (s : GameState) (t : Bool) (v : Int)
    (h9 : s.board.length = 9) :
    ai.atLeast (n + 1) s t v =
      if s.checkWinner = ai.computerPlayer then decide (v ≤ 1)
      else if s.checkWinner = ai.humanPlayer then decide (v ≤ -1)
      else if s.isFull then decide (v ≤ 0)
      else if t then
        s.getAvailableMoves.any
          (fun move => ai.atLeast n (s.makeMove move ai.computerPlayer) false v)
      else
        s.getAvailableMoves.all
          (fun move => ai.atLeast n (s.makeMove move ai.humanPlayer) true v) := by
  obtain ⟨c0, c1, c2, c3, c4, c5, c6, c7, c8, rfl⟩ := board_eq_of_length s h9
  rfl

theorem atMost_succ (ai : TicTacToeTree) (n : Nat) (s : GameState) (t : Bool) (v : Int)
    (h9 : s.board.length = 9) :
    ai.atMost (n + 1) s t v =
      if s.checkWinner = ai.computerPlayer then decide (1 ≤ v)
      else if s.checkWinner = ai.humanPlayer then decide (-1 ≤ v)
      else if s.isFull then decide (0 ≤ v)
      else if t then
        s.getAvailableMoves.all
          (fun move => ai.atMost n (s.makeMove move ai.computerPlayer) false v)
      else
        s.getAvailableMoves.any
          (fun move => ai.atMost n (s.makeMove move ai.humanPlayer) true v) := by
  obtain ⟨c0, c1, c2, c3, c4, c5, c6, c7, c8, rfl⟩ := board_eq_of_length s h9
  rfl

theorem atLeast_sound (ai : TicTacToeTree) (hh : ai.humanPlayer ≠ EMPTY)
    (hc : ai.computerPlayer ≠ EMPTY) (n : Nat) (s : GameState) (t : Bool) (v : Int)
    (h : ai.atLeast n s t v = true) : ∃ w, ai.minimax s t = some w ∧ v ≤ w := by
  induction n generalizing s t with
  | zero => simp [atLeast] at h
  | succ n ih =>
    have h9 := atLeast_length ai _ s t v h
    rw [atLeast_succ ai n s t v h9] at h
    by_cases h1 : s.checkWinner = ai.computerPlayer
    · rw [if_pos h1] at h
      exact ⟨1, minimax_computer_wins ai s t h1, by simpa using h⟩
    · rw [if_neg h1] at h
      by_cases h2 : s.checkWinner = ai.humanPlayer
      · rw [if_pos h2] at h
        exact ⟨-1, minimax_human_wins ai s t h1 h2, by simpa using h⟩
      · rw [if_neg h2] at h
        by_cases h3 : s.isFull = true
        · rw [if_pos h3] at h
          exact ⟨0, minimax_full ai s t h1 h2 h3, by simpa using h⟩
        · rw [if_neg h3] at h
          have hf : s.isFull = false := by simpa using h3
          have hne := getAvailableMoves_ne_nil s h9 hf
          cases t with
          | true =>
            simp only [if_true, List.any_eq_true] at h
            obtain ⟨m, hm, hmv⟩ := h
            obtain ⟨w, hw, hvw⟩ := ih _ _ hmv
            obtain ⟨u, hu, -, hall⟩ := scoreLoop_max_children ai hh hc s h9 hne
            obtain ⟨w', hw', hwu⟩ := hall m hm
            rw [hw, Option.some.injEq] at hw'
            exact ⟨u, (minimax_step_max ai hh hc s h9 h1 h2 hf).trans hu, by omega⟩
          | false =>
            simp only [Bool.false_eq_true, if_false, List.all_eq_true] at h
            obtain ⟨u, hu, ⟨m, hm, hmu⟩, -⟩ := scoreLoop_min_children ai hh hc s h9 hne
            obtain ⟨w, hw, hvw⟩ := ih _ _ (h m hm)
            rw [hmu, Option.some.injEq] at hw
            exact ⟨u, (minimax_step_min ai hh hc s h9 h1 h2 hf).trans hu, by omega⟩

theorem atMost_sound (ai : TicTacToeTree) (hh : ai.humanPlayer ≠ EMPTY)
    (hc : ai.computerPlayer ≠ EMPTY) (n : Nat) (s : GameState) (t : Bool) (v : Int)
    (h : ai.atMost n s t v = true) : ∃ w, ai.minimax s t = some w ∧ w ≤ v := by
  induction n generalizing s t with
  | zero => simp [atMost] at h
  | succ n ih =>
    have h9 := atMost_length ai _ s t v h
    rw [atMost_succ ai n s t v h9] at h
    by_cases h1 : s.checkWinner = ai.computerPlayer
    · rw [if_pos h1] at h
      exact ⟨1, minimax_computer_wins ai s t h1, by simpa using h⟩
    · rw [if_neg h1] at h
      by_cases h2 : s.checkWinner = ai.humanPlayer
      · rw [if_pos h2] at h
        exact ⟨-1, minimax_human_wins ai s t h1 h2, by simpa using h⟩
      · rw [if_neg h2] at h
        by_cases h3 : s.isFull = true
        · rw [if_pos h3] at h
          exact ⟨0, minimax_full ai s t h1 h2 h3, by simpa using h⟩
        · rw [if_neg h3] at h
          have hf : s.isFull = false := by simpa using h3
          have hne := getAvailableMoves_ne_nil s h9 hf
          cases t with
          | true =>
            simp only [if_true, List.all_eq_true] at h
            obtain ⟨u, hu, ⟨m, hm, hmu⟩, -⟩ := scoreLoop_max_children ai hh hc s h9 hne
            obtain ⟨w, hw, hvw⟩ := ih _ _ (h m hm)
            rw [hmu, Option.some.injEq] at hw
            exact ⟨u, (minimax_step_max ai hh hc s h9 h1 h2 hf).trans hu, by omega⟩
          | false =>
            simp only [Bool.false_eq_true, if_false, List.any_eq_true] at h
            obtain ⟨m, hm, hmv⟩ := h
            obtain ⟨w, hw, hvw⟩ := ih _ _ hmv
            obtain ⟨u, hu, -, hall⟩ := scoreLoop_min_children ai hh hc s h9 hne
            obtain ⟨w', hw', hwu⟩ := hall m hm
            rw [hw, Option.some.injEq] at hw'
            exact ⟨u, (minimax_step_min ai hh hc s h9 h1 h2 hf).trans hu, by omega⟩

/-- A score can be read off from a matching pair of bound searches. -/
theorem minimax_eq_of_bounds (ai : TicTacToeTree) (hh : ai.humanPlayer ≠ EMPTY)
    (hc : ai.computerPlayer ≠ EMPTY) (n k : Nat) (s : GameState) (t : Bool) (v : Int)
    (hlo : ai.atLeast n s t v = true) (hhi : ai.atMost k s t v = true) :
    ai.minimax s t = some v := by
  obtain ⟨w, hw, h1⟩ := atLeast_sound ai hh hc n s t v hlo
  obtain ⟨w', hw', h2⟩ := atMost_sound ai hh hc k s t v hhi
  rw [hw, Option.some.injEq] at hw'
  rw [hw, Option.some.injEq]
  omega

/-! ## Bound searches on bit sets -/

theorem bitWinner_eq_loop (hm cm : Nat) :
    bitWinner hm cm = bitWinnerLoop hm cm lineMasks := rfl

theorem cell_bitBoard (ai : TicTacToeTree) (hm cm i : Nat) (hi : i < 9) :
    (bitBoard ai hm cm).cell i = bitCell ai hm cm i := by
  interval_cases i <;> rfl

theorem bits_mask : ∀ x < 512, ∀ pm ∈ List.zip winPatterns lineMasks,
    Nat.beq (x &&& pm.2) pm.2 =
        (x.testBit pm.1.1 && x.testBit pm.1.2.1 && x.testBit pm.1.2.2) ∧
      Nat.beq (x &&& pm.2) 0 =
        (!x.testBit pm.1.1 && !x.testBit pm.1.2.1 && !x.testBit pm.1.2.2) := by
  decide!

theorem bits_free : ∀ x < 512, ∀ i < 9, Nat.beq (x &&& 2 ^ i) 0 = !x.testBit i := by
  decide!

theorem bits_full : ∀ x < 512, (Nat.beq x 511 = true ↔ ∀ i < 9, x.testBit i = true) := by
  decide!

theorem zip_lt : ∀ pm ∈ List.zip winPatterns lineMasks,
    pm.1.1 < 9 ∧ pm.1.2.1 < 9 ∧ pm.1.2.2 < 9 := by
  decide

theorem lineWon_bitBoard (ai : TicTacToeTree) (hh : ai.humanPlayer ≠ EMPTY)
    (hc : ai.computerPlayer ≠ EMPTY) (hd : ai.humanPlayer ≠ ai.computerPlayer)
    (hm cm : Nat) (p : Nat × Nat × Nat) (hp : p.1 < 9 ∧ p.2.1 < 9 ∧ p.2.2 < 9) :
    (bitBoard ai hm cm).lineWon p =
      ((cm.testBit p.1 && cm.testBit p.2.1 && cm.testBit p.2.2) ||
        ((hm.testBit p.1 && hm.testBit p.2.1 && hm.testBit p.2.2) &&
          (!cm.testBit p.1 && !cm.testBit p.2.1 && !cm.testBit p.2.2))) := by
  have hd' := Ne.symm hd
  have hh' := Ne.symm hh
  have hc' := Ne.symm hc
  simp only [lineWon, cell_bitBoard ai hm cm _ hp.1, cell_bitBoard ai hm cm _ hp.2.1,
    cell_bitBoard ai hm cm _ hp.2.2, bitCell]
  cases cm.testBit p.1 <;> cases cm.testBit p.2.1 <;> cases cm.testBit p.2.2 <;>
    cases hm.testBit p.1 <;> cases hm.testBit p.2.1 <;> cases hm.testBit p.2.2 <;>
    simp [hh, hc, hd, hd', hh', hc']

theorem checkWinnerLoop_bitBoard (ai : TicTacToeTree) (hh : ai.humanPlayer ≠ EMPTY)
    (hc : ai.computerPlayer ≠ EMPTY) (hd : ai.humanPlayer ≠ ai.computerPlayer)
    (hm cm : Nat) (hhm : hm < 512) (hcm : cm < 512) (l : List ((Nat × Nat × Nat) × Nat))
    (hl : ∀ pm ∈ l, pm ∈ List.zip winPatterns lineMasks) :
    (bitBoard ai hm cm).checkWinnerLoop (l.map Prod.fst) =
      winnerMark ai (bitWinnerLoop hm cm (l.map Prod.snd)) := by
  induction l with
  | nil => rfl
  | cons pm rest ih =>
    have hz := hl pm (List.mem_cons_self _ _)
    have hp := zip_lt pm hz
    have ih' := ih (fun q hq => hl q (List.mem_cons_of_mem _ hq))
    obtain ⟨c1, c2⟩ := bits_mask cm hcm pm hz
    obtain ⟨h1, -⟩ := bits_mask hm hhm pm hz
    simp only [List.map_cons, checkWinnerLoop, bitWinnerLoop,
      lineWon_bitBoard ai hh hc hd hm cm pm.1 hp, cell_bitBoard ai hm cm _ hp.1, bitCell,
      c1, c2, h1, ih']
    cases cm.testBit pm.1.1 <;> cases cm.testBit pm.1.2.1 <;> cases cm.testBit pm.1.2.2 <;>
      cases hm.testBit pm.1.1 <;> cases hm.testBit pm.1.2.1 <;>
      cases hm.testBit pm.1.2.2 <;> simp [winnerMark]

theorem checkWinner_bitBoard (ai : TicTacToeTree) (hh : ai.humanPlayer ≠ EMPTY)
    (hc : ai.computerPlayer ≠ EMPTY) (hd : ai.humanPlayer ≠ ai.computerPlayer)
    (hm cm : Nat) (hhm : hm < 512) (hcm : cm < 512) :
    (bitBoard ai hm cm).checkWinner = winnerMark ai (bitWinner hm cm) := by
  rw [bitWinner_eq_loop]
  exact checkWinnerLoop_bitBoard ai hh hc hd hm cm hhm hcm
    (List.zip winPatterns lineMasks) (fun _ h => h)

theorem bitCell_eq_empty (ai : TicTacToeTree) (hh : ai.humanPlayer ≠ EMPTY)
    (hc : ai.computerPlayer ≠ EMPTY) (hm cm i : Nat) :
    bitCell ai hm cm i = EMPTY ↔ (hm ||| cm).testBit i = false := by
  rw [Nat.testBit_or, bitCell]
  cases cm.testBit i <;> cases hm.testBit i <;> simp [hh, hc]

theorem or_lt_512 (a b : Nat) (ha : a < 512) (hb : b < 512) : a ||| b < 512 :=
  Nat.or_lt_two_pow (n := 9) ha hb

theorem pow_lt_512 (i : Nat) (hi : i < 9) : 2 ^ i < 512 := by
  interval_cases i <;> decide

theorem isFull_bitBoard (ai : TicTacToeTree) (hh : ai.humanPlayer ≠ EMPTY)
    (hc : ai.computerPlayer ≠ EMPTY) (hm cm : Nat) (hhm : hm < 512) (hcm : cm < 512) :
    (bitBoard ai hm cm).isFull = Nat.beq (hm ||| cm) 511 := by
  rw [Bool.eq_iff_iff, isFull_iff_cells (bitBoard ai hm cm) rfl,
    bits_full _ (or_lt_512 hm cm hhm hcm)]
  constructor
  · intro h i hi
    have := h i hi
    rw [cell_bitBoard ai hm cm i hi, Ne, bitCell_eq_empty ai hh hc] at this
    cases hb : (hm ||| cm).testBit i with
    | false => exact absurd hb this
    | true => rfl
  · intro h i hi
    rw [cell_bitBoard ai hm cm i hi, Ne, bitCell_eq_empty ai hh hc, h i hi]
    simp

theorem bitFree_iff (ai : TicTacToeTree) (hh : ai.humanPlayer ≠ EMPTY)
    (hc : ai.computerPlayer ≠ EMPTY) (hm cm : Nat) (hhm : hm < 512) (hcm : cm < 512)
    (i : Nat) (hi : i < 9) :
    bitFree hm cm (2 ^ i) = true ↔ (bitBoard ai hm cm).cell i = EMPTY := by
  rw [bitFree, bits_free _ (or_lt_512 hm cm hhm hcm) i hi, cell_bitBoard ai hm cm i hi,
    bitCell_eq_empty ai hh hc]
  simp

theorem bitCell_or_computer (ai : TicTacToeTree) (hm cm i j : Nat) :
    bitCell ai hm (cm ||| 2 ^ i) j =
      if i = j then ai.computerPlayer else bitCell ai hm cm j := by
  simp only [bitCell, Nat.testBit_or, Nat.testBit_two_pow]
  by_cases h : i = j <;> simp [h]

theorem bitCell_or_human (ai : TicTacToeTree) (hm cm i j : Nat)
    (hfree : cm.testBit i = false) :
    bitCell ai (hm ||| 2 ^ i) cm j =
      if i = j then ai.humanPlayer else bitCell ai hm cm j := by
  simp only [bitCell, Nat.testBit_or, Nat.testBit_two_pow]
  by_cases h : i = j
  · subst h; simp [hfree]
  · simp [h]

theorem makeMove_bitBoard_computer (ai : TicTacToeTree) (hm cm i : Nat) (hi : i < 9) :
    (bitBoard ai hm cm).makeMove i ai.computerPlayer = bitBoard ai hm (cm ||| 2 ^ i) := by
  simp only [bitBoard, bitCell_or_computer]
  interval_cases i <;> simp [makeMove]

theorem makeMove_bitBoard_human (ai : TicTacToeTree) (hm cm i : Nat) (hi : i < 9)
    (hfree : cm.testBit i = false) :
    (bitBoard ai hm cm).makeMove i ai.humanPlayer = bitBoard ai (hm ||| 2 ^ i) cm := by
  simp only [bitBoard, bitCell_or_human ai hm cm i _ hfree]
  interval_cases i <;> simp [makeMove]

theorem anyCell_iff (f : Nat → Bool) : anyCell f = true ↔ ∃ i, i < 9 ∧ f (2 ^ i) = true := by
  constructor
  · intro h
    simp only [anyCell, Bool.or_eq_true] at h
    rcases h with h | h | h | h | h | h | h | h | h
    · exact ⟨4, by decide, h⟩
    · exact ⟨0, by decide, h⟩
    · exact ⟨2, by decide, h⟩
    · exact ⟨6, by decide, h⟩
    · exact ⟨8, by decide, h⟩
    · exact ⟨1, by decide, h⟩
    · exact ⟨3, by decide, h⟩
    · exact ⟨5, by decide, h⟩
    · exact ⟨7, by decide, h⟩
  · rintro ⟨i, hi, h⟩
    interval_cases i <;> simp_all [anyCell]

theorem allCell_iff (f : Nat → Bool) : allCell f = true ↔ ∀ i, i < 9 → f (2 ^ i) = true := by
  constructor
  · intro h i hi
    simp only [allCell, Bool.and_eq_true] at h
    obtain ⟨h0, h1, h2, h3, h4, h5, h6, h7, h8⟩ := h
    interval_cases i <;> assumption
  · intro h
    simp only [allCell, Bool.and_eq_true]
    exact ⟨h 0 (by decide), h 1 (by decide), h 2 (by decide), h 3 (by decide),
      h 4 (by decide), h 5 (by decide), h 6 (by decide), h 7 (by decide), h 8 (by decide)⟩

theorem bitAtLeast_succ (n hm cm : Nat) (t : Bool) (v : Int) :
    bitAtLeast (n + 1) hm cm t v =
      match bitWinner hm cm with
      | some true => decide (v ≤ 1)
      | some false => decide (v ≤ -1)
      | none =>
        bif Nat.beq (hm ||| cm) 511 then decide (v ≤ 0)
        else bif t then
          anyCell (fun b => bitFree hm cm b && bitAtLeast n hm (cm ||| b) false v)
        else
          allCell (fun b => !bitFree hm cm b || bitAtLeast n (hm ||| b) cm true v) := rfl

theorem bitAtMost_succ (n hm cm : Nat) (t : Bool) (v : Int) :
    bitAtMost (n + 1) hm cm t v =
      match bitWinner hm cm with
      | some true => decide (1 ≤ v)
      | some false => decide (-1 ≤ v)
      | none =>
        bif Nat.beq (hm ||| cm) 511 then decide (0 ≤ v)
        else bif t then
          allCell (fun b => !bitFree hm cm b || bitAtMost n hm (cm ||| b) false v)
        else
          anyCell (fun b => bitFree hm cm b && bitAtMost n (hm ||| b) cm true v) := rfl

theorem bitAtLeast_sound (ai : TicTacToeTree) (hh : ai.humanPlayer ≠ EMPTY)
    (hc : ai.computerPlayer ≠ EMPTY) (hd : ai.humanPlayer ≠ ai.computerPlayer)
    (n hm cm : Nat) (t : Bool) (v : Int) (hhm : hm < 512) (hcm : cm < 512)
    (h : bitAtLeast n hm cm t v = true) : ai.atLeast n (bitBoard ai hm cm) t v = true := by
  induction n generalizing hm cm t with
  | zero => simp [bitAtLeast] at h
  | succ n ih =>
    rw [atLeast_succ ai n (bitBoard ai hm cm) t v rfl]
    rw [bitAtLeast_succ] at h
    have hw := checkWinner_bitBoard ai hh hc hd hm cm hhm hcm
    cases hbw : bitWinner hm cm with
    | some b =>
      rw [hbw] at h hw
      cases b with
      | true =>
        have hw' : (bitBoard ai hm cm).checkWinner = ai.computerPlayer := hw
        rw [if_pos hw']
        exact h
      | false =>
        have hw' : (bitBoard ai hm cm).checkWinner = ai.humanPlayer := hw
        rw [if_neg (by rw [hw']; exact hd), if_pos hw']
        exact h
    | none =>
      rw [hbw] at h hw
      have hw' : (bitBoard ai hm cm).checkWinner = EMPTY := hw
      rw [if_neg (by rw [hw']; exact Ne.symm hc), if_neg (by rw [hw']; exact Ne.symm hh),
        isFull_bitBoard ai hh hc hm cm hhm hcm]
      simp only at h
      cases hfull : Nat.beq (hm ||| cm) 511 with
      | true =>
        rw [hfull] at h
        simpa using h
      | false =>
        rw [hfull] at h
        simp only [cond_false, Bool.false_eq_true, if_false] at h ⊢
        cases t with
        | true =>
          simp only [cond_true, anyCell_iff, Bool.and_eq_true, if_true] at h ⊢
          obtain ⟨i, hi, hfree, hrec⟩ := h
          have hcell := (bitFree_iff ai hh hc hm cm hhm hcm i hi).1 hfree
          rw [List.any_eq_true]
          refine ⟨i, (mem_getAvailableMoves _ i).2 ⟨hi, hcell⟩, ?_⟩
          rw [makeMove_bitBoard_computer ai hm cm i hi]
          exact ih hm _ false hhm (or_lt_512 _ _ hcm (pow_lt_512 i hi)) hrec
        | false =>
          simp only [cond_false, allCell_iff, Bool.or_eq_true, Bool.not_eq_true',
            Bool.false_eq_true, if_false] at h ⊢
          rw [List.all_eq_true]
          intro m hmem
          obtain ⟨hi, hcell⟩ := (mem_getAvailableMoves _ m).1 hmem
          have hfree := (bitFree_iff ai hh hc hm cm hhm hcm m hi).2 hcell
          have hrec := (h m hi).resolve_left (by simp [hfree])
          have hcbit : cm.testBit m = false := by
            have := (bitCell_eq_empty ai hh hc hm cm m).1
              ((cell_bitBoard ai hm cm m hi).symm.trans hcell)
            rw [Nat.testBit_or] at this
            cases hb : cm.testBit m with
            | false => rfl
            | true => rw [hb] at this; simp at this
          rw [makeMove_bitBoard_human ai hm cm m hi hcbit]
          exact ih _ cm true (or_lt_512 _ _ hhm (pow_lt_512 m hi)) hcm hrec

theorem bitAtMost_sound (ai : TicTacToeTree) (hh : ai.humanPlayer ≠ EMPTY)
    (hc : ai.computerPlayer ≠ EMPTY) (hd : ai.humanPlayer ≠ ai.computerPlayer)
    (n hm cm : Nat) (t : Bool) (v : Int) (hhm : hm < 512) (hcm : cm < 512)
    (h : bitAtMost n hm cm t v = true) : ai.atMost n (bitBoard ai hm cm) t v = true := by
  induction n generalizing hm cm t with
  | zero => simp [bitAtMost] at h
  | succ n ih =>
    rw [atMost_succ ai n (bitBoard ai hm cm) t v rfl]
    rw [bitAtMost_succ] at h
    have hw := checkWinner_bitBoard ai hh hc hd hm cm hhm hcm
    cases hbw : bitWinner hm cm with
    | some b =>
      rw [hbw] at h hw
      cases b with
      | true =>
        have hw' : (bitBoard ai hm cm).checkWinner = ai.computerPlayer := hw
        rw [if_pos hw']
        exact h
      | false =>
        have hw' : (bitBoard ai hm cm).checkWinner = ai.humanPlayer := hw
        rw [if_neg (by rw [hw']; exact hd), if_pos hw']
        exact h
    | none =>
      rw [hbw] at h hw
      have hw' : (bitBoard ai hm cm).checkWinner = EMPTY := hw
      rw [if_neg (by rw [hw']; exact Ne.symm hc), if_neg (by rw [hw']; exact Ne.symm hh),
        isFull_bitBoard ai hh hc hm cm hhm hcm]
      simp only at h
      cases hfull : Nat.beq (hm ||| cm) 511 with
      | true =>
        rw [hfull] at h
        simpa using h
      | false =>
        rw [hfull] at h
        simp only [cond_false, Bool.false_eq_true, if_false] at h ⊢
        cases t with
        | true =>
          simp only [cond_true, allCell_iff, Bool.or_eq_true, Bool.not_eq_true',
            if_true] at h ⊢
          rw [List.all_eq_true]
          intro m hmem
          obtain ⟨hi, hcell⟩ := (mem_getAvailableMoves _ m).1 hmem
          have hfree := (bitFree_iff ai hh hc hm cm hhm hcm m hi).2 hcell
          have hrec := (h m hi).resolve_left (by simp [hfree])
          rw [makeMove_bitBoard_computer ai hm cm m hi]
          exact ih hm _ false hhm (or_lt_512 _ _ hcm (pow_lt_512 m hi)) hrec
        | false =>
          simp only [cond_false, anyCell_iff, Bool.and_eq_true, Bool.false_eq_true,
            if_false] at h ⊢
          obtain ⟨i, hi, hfree, hrec⟩ := h
          have hcell := (bitFree_iff ai hh hc hm cm hhm hcm i hi).1 hfree
          have hcbit : cm.testBit i = false := by
            have := (bitCell_eq_empty ai hh hc hm cm i).1
              ((cell_bitBoard ai hm cm i hi).symm.trans hcell)
            rw [Nat.testBit_or] at this
            cases hb : cm.testBit i with
            | false => rfl
            | true => rw [hb] at this; simp at this
          rw [List.any_eq_true]
          refine ⟨i, (mem_getAvailableMoves _ i).2 ⟨hi, hcell⟩, ?_⟩
          rw [makeMove_bitBoard_human ai hm cm i hi hcbit]
          exact ih _ cm true (or_lt_512 _ _ hhm (pow_lt_512 i hi)) hcm hrec

/-! ## The empty board -/

theorem bitBoard_init : bitBoard ⟨'X', 'O'⟩ 0 0 = GameState.init := by
  decide

theorem bitAtLeast_init : bitAtLeast 10 0 0 true 0 = true := by
  decide!

theorem bitAtMost_init : bitAtMost 10 0 0 true 0 = true := by
  decide!

theorem atLeast_init : (TicTacToeTree.mk 'X' 'O').atLeast 10 GameState.init true 0 = true := by
  have h := bitAtLeast_sound ⟨'X', 'O'⟩ (by decide) (by decide) (by decide) 10 0 0 true 0
    (by decide) (by decide) bitAtLeast_init
  rwa [bitBoard_init] at h

theorem atMost_init : (TicTacToeTree.mk 'X' 'O').atMost 10 GameState.init true 0 = true := by
  have h := bitAtMost_sound ⟨'X', 'O'⟩ (by decide) (by decide) (by decide) 10 0 0 true 0
    (by decide) (by decide) bitAtMost_init
  rwa [bitBoard_init] at h

theorem minimax_init_XO : (TicTacToeTree.mk 'X' 'O').minimax GameState.init true = some 0 :=
  minimax_eq_of_bounds _ (by decide) (by decide) 10 10 _ _ _ atLeast_init atMost_init

theorem rename_init (σ : Char → Char) (h0 : σ EMPTY = EMPTY) :
    GameState.init.rename σ = GameState.init := by
  simp [GameState.init, rename, h0]

theorem minimax_init_true (ai : TicTacToeTree) (hh : ai.humanPlayer ≠ EMPTY)
    (hc : ai.computerPlayer ≠ EMPTY) (hd : ai.humanPlayer ≠ ai.computerPlayer) :
    ai.minimax GameState.init true = some 0 := by
  obtain ⟨σ, hσ, h0, hX, hO⟩ := exists_renaming _ _ hh hc hd
  have := minimax_rename σ hσ h0 'X' 'O' GameState.init true
  rw [rename_init σ h0, hX, hO, minimax_init_XO] at this
  exact this

theorem minimax_init_false (ai : TicTacToeTree) (hh : ai.humanPlayer ≠ EMPTY)
    (hc : ai.computerPlayer ≠ EMPTY) (hd : ai.humanPlayer ≠ ai.computerPlayer) :
    ai.minimax GameState.init false = some 0 := by
  have h := minimax_init_true ⟨ai.computerPlayer, ai.humanPlayer⟩ hc hh (Ne.symm hd)
  have := minimax_swap _ _ (Ne.symm hd) GameState.init true 0 rfl h
  simpa using this

end TicTacToeTree

/-! ## The game loop -/

open GameState TicTacToeTree

theorem gameInv_not_lost (human computer : Char) (hd : human ≠ computer) (g : Game)
    (hinv : GameInv human computer g) : g.state.checkWinner ≠ human := by
  obtain ⟨-, -, v, hv0, hv⟩ := hinv
  intro e
  have h1 : g.state.checkWinner ≠ computer := fun e' => hd (e.symm.trans e')
  rw [minimax_human_wins ⟨human, computer⟩ g.state _ h1 e, Option.some.injEq] at hv
  omega

theorem gameInv_init (human computer : Char) (hh : human ≠ EMPTY) (hc : computer ≠ EMPTY)
    (hd : human ≠ computer) (first : Char) (hf : first = human ∨ first = computer) :
    GameInv human computer ⟨GameState.init, first⟩ := by
  refine ⟨rfl, hf, 0, le_refl _, ?_⟩
  cases decide (first = computer) with
  | true => exact minimax_init_true ⟨human, computer⟩ hh hc hd
  | false => exact minimax_init_false ⟨human, computer⟩ hh hc hd

theorem gameInv_step (human computer : Char) (hh : human ≠ EMPTY) (hc : computer ≠ EMPTY)
    (hd : human ≠ computer) (g g' : Game) (input : Int) (r : Nat)
    (hinv : GameInv human computer g)
    (hstep : playStep human computer g input r = some g') : GameInv human computer g' := by
  obtain ⟨h9, hcur, v, hv0, hv⟩ := hinv
  unfold playStep at hstep
  by_cases hover : g.state.isGameOver = true
  · simp [hover] at hstep
  · rw [if_neg hover] at hstep
    obtain ⟨hw, hfull⟩ := isGameOver_eq_false g.state hover
    have h1 : g.state.checkWinner ≠ (TicTacToeTree.mk human computer).computerPlayer := by
      rw [hw]; exact Ne.symm hc
    have h2 : g.state.checkWinner ≠ (TicTacToeTree.mk human computer).humanPlayer := by
      rw [hw]; exact Ne.symm hh
    have hne := getAvailableMoves_ne_nil g.state h9 hfull
    by_cases hturn : g.currentPlayer = human
    · rw [if_pos hturn] at hstep
      have hflag : decide (g.currentPlayer = computer) = false := by simp [hturn, hd]
      rw [hflag] at hv
      by_cases hin : 0 ≤ input ∧ input < 9 ∧ g.state.cell input.toNat = EMPTY
      · rw [if_pos hin, Option.some.injEq] at hstep
        subst hstep
        have hm : input.toNat ∈ g.state.getAvailableMoves :=
          (mem_getAvailableMoves _ _).2 ⟨by omega, hin.2.2⟩
        obtain ⟨u, hu, -, hall⟩ := scoreLoop_min_children ⟨human, computer⟩ hh hc g.state h9 hne
        have hs := minimax_step_min ⟨human, computer⟩ hh hc g.state h9 h1 h2 hfull
        rw [hs, hu, Option.some.injEq] at hv
        obtain ⟨w, hw', hvw⟩ := hall _ hm
        refine ⟨by rw [length_makeMove]; exact h9, Or.inr rfl, w, by omega, ?_⟩
        simpa using hw'
      · rw [if_neg hin, Option.some.injEq] at hstep
        subst hstep
        exact ⟨h9, hcur, v, hv0, by rw [hflag]; exact hv⟩
    · rw [if_neg hturn] at hstep
      have hcomp : g.currentPlayer = computer := hcur.resolve_left hturn
      have hflag : decide (g.currentPlayer = computer) = true := by simp [hcomp]
      rw [hflag] at hv
      obtain ⟨best, tied, hb, htied, -, hfm⟩ :=
        findBestMove_eq ⟨human, computer⟩ hh hc g.state h9 hne r
      have hs := minimax_step_max ⟨human, computer⟩ hh hc g.state h9 h1 h2 hfull
      rw [hs, hb, Option.some.injEq] at hv
      cases hfb : (TicTacToeTree.mk human computer).findBestMove g.state r with
      | none => simp [hfb] at hstep
      | some move =>
        simp only [hfb, Option.some.injEq] at hstep
        subst hstep
        rw [hfb] at hfm
        have hmem : move ∈ tied := List.getElem?_mem hfm.symm
        rw [htied, List.mem_filter] at hmem
        refine ⟨by rw [length_makeMove]; exact h9, Or.inl rfl, best, by omega, ?_⟩
        have hflag' : decide (human = computer) = false := by simp [hd]
        rw [hflag']
        simpa using hmem.2

theorem playLoop_nil (human computer : Char) (g : Game) :
    playLoop human computer g [] = g := rfl

theorem playLoop_cons (human computer : Char) (g : Game) (input : Int) (r : Nat)
    (rest : List (Int × Nat)) :
    playLoop human computer g ((input, r) :: rest) =
      match playStep human computer g input r with
      | none => g
      | some g' => playLoop human computer g' rest := rfl

theorem gameInv_loop (human computer : Char) (hh : human ≠ EMPTY) (hc : computer ≠ EMPTY)
    (hd : human ≠ computer) (inputs : List (Int × Nat)) (g : Game)
    (hinv : GameInv human computer g) :
    GameInv human computer (playLoop human computer g inputs) := by
  induction inputs generalizing g with
  | nil =>
    rw [playLoop_nil]
    exact hinv
  | cons x rest ih =>
    obtain ⟨input, r⟩ := x
    rw [playLoop_cons]
    cases hst : playStep human computer g input r with
    | none => exact hinv
    | some g' =>
      exact ih g' (gameInv_step human computer hh hc hd g g' input r hinv hst)

theorem gameInv_findBestMove (human computer : Char) (hh : human ≠ EMPTY)
    (hc : computer ≠ EMPTY) (g : Game) (hinv : GameInv human computer g)
    (hover : g.state.isGameOver = false) (r : Nat) :
    ∃ move, (TicTacToeTree.mk human computer).findBestMove g.state r = some move ∧
      move ∈ g.state.getAvailableMoves := by
  have hfull := (isGameOver_eq_false g.state (by rw [hover]; exact Bool.false_ne_true)).2
  have hne := getAvailableMoves_ne_nil g.state hinv.1 hfull
  obtain ⟨m, best, hfm, hm, -, -⟩ := findBestMove_mem ⟨human, computer⟩ hh hc g.state hinv.1 hne r
  exact ⟨m, hfm, hm⟩

theorem getAvailableMoves_ne_nil_of_mem (s : GameState) (h9 : s.board.length = 9)
    (he : EMPTY ∈ s.board) : s.getAvailableMoves ≠ [] := by
  intro h
  rw [getAvailableMoves_eq_nil_iff, ← not_mem_board_iff s h9] at h
  exact h he

theorem winPatterns_lt : ∀ p ∈ winPatterns, p.1 < 9 := by
  decide

theorem checkWinner_ne_empty_iff (s : GameState) :
    s.checkWinner ≠ EMPTY ↔ ∃ p ∈ winPatterns, s.threeInRow p := by
  rw [Ne, checkWinner_eq_empty_iff]
  push_neg
  rfl

/-! ## The claims -/

/-- C1. On a 9-cell board with a blank cell and non-blank marks, for every value
`r` of the random draw `findBestMove` returns an index `m` that is an available
move (so `m ≤ 8` and cell `m` is blank) and whose child score is the maximum of
the child scores over all available moves. -/
theorem findBestMove_optimal (ai : TicTacToeTree) (s : GameState) (r : Nat)
    (h9 : s.board.length = 9) (he : EMPTY ∈ s.board)
    (hh : ai.humanPlayer ≠ EMPTY) (hc : ai.computerPlayer ≠ EMPTY) :
    ∃ m v, ai.findBestMove s r = some m ∧ m ∈ s.getAvailableMoves ∧ m ≤ 8 ∧
      s.board[m]? = some EMPTY ∧
      ai.minimax (s.makeMove m ai.computerPlayer) false = some v ∧
      ∀ k ∈ s.getAvailableMoves,
        ∃ w, ai.minimax (s.makeMove k ai.computerPlayer) false = some w ∧ w ≤ v := by
  have hne := getAvailableMoves_ne_nil_of_mem s h9 he
  obtain ⟨m, best, hfm, hm, hmv, hb⟩ := findBestMove_mem ai hh hc s h9 hne r
  obtain ⟨v, hv, -, hall⟩ := scoreLoop_max_children ai hh hc s h9 hne
  rw [hb, Option.some.injEq] at hv
  subst hv
  have hcell := (mem_getAvailableMoves s m).1 hm
  exact ⟨m, best, hfm, hm, by omega, (cell_eq_empty_iff s h9 m).1 hcell, hmv, hall⟩

theorem findBestMove_optimal_witness :
    GameState.init.board.length = 9 ∧ EMPTY ∈ GameState.init.board ∧
      (TicTacToeTree.mk 'X' 'O').humanPlayer ≠ EMPTY ∧
      (TicTacToeTree.mk 'X' 'O').computerPlayer ≠ EMPTY ∧
      ∃ m v, (TicTacToeTree.mk 'X' 'O').findBestMove GameState.init 3 = some m ∧
        m ∈ GameState.init.getAvailableMoves ∧ m ≤ 8 ∧
        GameState.init.board[m]? = some EMPTY ∧
        (TicTacToeTree.mk 'X' 'O').minimax (GameState.init.makeMove m 'O') false = some v ∧
        ∀ k ∈ GameState.init.getAvailableMoves,
          ∃ w, (TicTacToeTree.mk 'X' 'O').minimax (GameState.init.makeMove k 'O') false
            = some w ∧ w ≤ v :=
  ⟨by decide, by decide, by decide, by decide,
    findBestMove_optimal ⟨'X', 'O'⟩ GameState.init 3 (by decide) (by decide) (by decide)
      (by decide)⟩

/-- C2. The engine never loses.  In `playGame`, whether the human chose `X` or
`O`, after any sequence of passes through the loop (any human inputs, any random
draws) the winner reported by `checkWinner` is not the human's mark; and on
every unfinished position where the computer is to move, `findBestMove` returns
an available move for every random draw, so play goes on. -/
theorem engine_never_loses (human : Char) (inputs : List (Int × Nat))
    (hX : human = 'X' ∨ human = 'O') :
    (playGame human inputs).state.checkWinner ≠ human ∧
      ((playGame human inputs).state.isGameOver = false →
        (playGame human inputs).currentPlayer ≠ human →
        ∀ r, ∃ move,
          (TicTacToeTree.mk human (if human = 'X' then 'O' else 'X')).findBestMove
            (playGame human inputs).state r = some move ∧
          move ∈ (playGame human inputs).state.getAvailableMoves) := by
  have main : ∀ computer, human ≠ EMPTY → computer ≠ EMPTY → human ≠ computer →
      ('X' = human ∨ 'X' = computer) →
      (playLoop human computer ⟨GameState.init, 'X'⟩ inputs).state.checkWinner ≠ human ∧
      ((playLoop human computer ⟨GameState.init, 'X'⟩ inputs).state.isGameOver = false →
        (playLoop human computer ⟨GameState.init, 'X'⟩ inputs).currentPlayer ≠ human →
        ∀ r, ∃ move, (TicTacToeTree.mk human computer).findBestMove
            (playLoop human computer ⟨GameState.init, 'X'⟩ inputs).state r = some move ∧
          move ∈
            (playLoop human computer ⟨GameState.init, 'X'⟩ inputs).state.getAvailableMoves) := by
    intro computer hh hc hd hf
    have hinv := gameInv_loop human computer hh hc hd inputs _
      (gameInv_init human computer hh hc hd 'X' hf)
    refine ⟨gameInv_not_lost human computer hd _ hinv, ?_⟩
    intro hover _ r
    exact gameInv_findBestMove human computer hh hc _ hinv hover r
  rcases hX with rfl | rfl
  · exact main 'O' (by decide) (by decide) (by decide) (Or.inl rfl)
  · exact main 'X' (by decide) (by decide) (by decide) (Or.inr rfl)

theorem engine_never_loses_witness :
    (('O' : Char) = 'X' ∨ ('O' : Char) = 'O') ∧
      (playGame 'O' [(0, 5), (4, 1)]).state.checkWinner ≠ 'O' :=
  ⟨by decide, (engine_never_loses 'O' [(0, 5), (4, 1)] (by decide)).1⟩

/-- C3. Perfect play from the empty board is a draw: for distinct non-blank
marks `minimax` on the empty 9-cell board with the computer to move returns 0,
and so does the recursion under any budget of at least 10 nested calls. -/
theorem minimax_empty_board_draw (ai : TicTacToeTree) (hh : ai.humanPlayer ≠ EMPTY)
    (hc : ai.computerPlayer ≠ EMPTY) (hd : ai.humanPlayer ≠ ai.computerPlayer) :
    GameState.init.board = List.replicate 9 EMPTY ∧
      ai.minimax GameState.init true = some 0 ∧
      ∀ fuel, 10 ≤ fuel → ai.minimaxFuel fuel GameState.init true = some 0 := by
  refine ⟨rfl, minimax_init_true ai hh hc hd, ?_⟩
  intro fuel hf
  have he : GameState.init.emptyCount = 9 := by decide
  rw [minimaxFuel_eq_minimax ai hh hc fuel GameState.init true rfl (by omega)]
  exact minimax_init_true ai hh hc hd

theorem minimax_empty_board_draw_witness :
    (TicTacToeTree.mk 'O' 'X').humanPlayer ≠ EMPTY ∧
      (TicTacToeTree.mk 'O' 'X').computerPlayer ≠ EMPTY ∧
      (TicTacToeTree.mk 'O' 'X').humanPlayer ≠ (TicTacToeTree.mk 'O' 'X').computerPlayer ∧
      (TicTacToeTree.mk 'O' 'X').minimax GameState.init true = some 0 :=
  ⟨by decide, by decide, by decide,
    (minimax_empty_board_draw ⟨'O', 'X'⟩ (by decide) (by decide) (by decide)).2.1⟩

/-- C4. Terminal base cases of `minimax`, in order of precedence, on a 9-cell board
and for either turn flag: the score is `+1` when `checkWinner` is the computer's
mark, otherwise `-1` when it is the human's mark, otherwise `0` when the board is
full.  So a full board on which `checkWinner` finds one of the two marks scores
`+1` or `-1`; in particular a full board made of the two marks that holds a
completed line never scores `0`. -/
theorem minimax_terminal_cases (ai : TicTacToeTree) (s : GameState) (t : Bool)
    (h9 : s.board.length = 9) :
    (s.checkWinner = ai.computerPlayer → ai.minimax s t = some 1) ∧
    (s.checkWinner ≠ ai.computerPlayer → s.checkWinner = ai.humanPlayer →
      ai.minimax s t = some (-1)) ∧
    (s.checkWinner ≠ ai.computerPlayer → s.checkWinner ≠ ai.humanPlayer →
      s.isFull = true → ai.minimax s t = some 0) ∧
    (s.isFull = true →
      (s.checkWinner = ai.computerPlayer ∨ s.checkWinner = ai.humanPlayer) →
      (ai.minimax s t = some 1 ∨ ai.minimax s t = some (-1)) ∧ ai.minimax s t ≠ some 0) ∧
    (s.isFull = true →
      (∀ c ∈ s.board, c = EMPTY ∨ c = ai.humanPlayer ∨ c = ai.computerPlayer) →
      (∃ p ∈ winPatterns, s.threeInRow p) →
      (ai.minimax s t = some 1 ∨ ai.minimax s t = some (-1)) ∧ ai.minimax s t ≠ some 0) := by
  have key : (s.checkWinner = ai.computerPlayer ∨ s.checkWinner = ai.humanPlayer) →
      (ai.minimax s t = some 1 ∨ ai.minimax s t = some (-1)) ∧ ai.minimax s t ≠ some 0 := by
    intro hw
    by_cases h1 : s.checkWinner = ai.computerPlayer
    · rw [minimax_computer_wins ai s t h1]; simp
    · rw [minimax_human_wins ai s t h1 (hw.resolve_left h1)]; simp
  refine ⟨minimax_computer_wins ai s t, minimax_human_wins ai s t, minimax_full ai s t,
    fun _ hw => key hw, ?_⟩
  intro _ hcells hline
  apply key
  obtain ⟨p, hp, h3, h4, -, -⟩ := checkWinner_owner s ((checkWinner_ne_empty_iff s).2 hline)
  have hlt : p.1 < s.board.length := by
    rw [h9]
    exact winPatterns_lt p hp
  have hmem : s.cell p.1 ∈ s.board := by
    rw [cell_eq_getElem s p.1 hlt]
    exact List.getElem_mem _
  rcases hcells _ hmem with h | h | h
  · exact absurd h h3.1
  · exact Or.inr (h4.symm.trans h)
  · exact Or.inl (h4.symm.trans h)

theorem minimax_terminal_cases_witness :
    (GameState.mk ['X', 'X', 'X', 'O', 'O', 'X', 'O', 'X', 'O']).board.length = 9 ∧
      (TicTacToeTree.mk 'X' 'O').minimax
        (GameState.mk ['X', 'X', 'X', 'O', 'O', 'X', 'O', 'X', 'O']) true = some (-1) :=
  ⟨by decide,
    (minimax_terminal_cases ⟨'X', 'O'⟩ ⟨['X', 'X', 'X', 'O', 'O', 'X', 'O', 'X', 'O']⟩ true
      (by decide)).2.1 (by decide) (by decide)⟩

/-- C5. Recursive step of `minimax` on a 9-cell board, for non-blank marks, when
`checkWinner` is neither player's mark and the board is not full: with the
computer to move the score is the maximum, over the available moves, of the
score of the child obtained by placing the computer's mark with the human to
move; with the human to move it is the minimum of the scores of the children
obtained by placing the human's mark with the computer to move. -/
theorem minimax_recursive_step (ai : TicTacToeTree) (s : GameState)
    (h9 : s.board.length = 9) (hh : ai.humanPlayer ≠ EMPTY) (hc : ai.computerPlayer ≠ EMPTY)
    (h1 : s.checkWinner ≠ ai.computerPlayer) (h2 : s.checkWinner ≠ ai.humanPlayer)
    (h3 : s.isFull = false) :
    (∃ v, ai.minimax s true = some v ∧
      (∃ m ∈ s.getAvailableMoves,
        ai.minimax (s.makeMove m ai.computerPlayer) false = some v) ∧
      ∀ m ∈ s.getAvailableMoves,
        ∃ w, ai.minimax (s.makeMove m ai.computerPlayer) false = some w ∧ w ≤ v) ∧
    (∃ v, ai.minimax s false = some v ∧
      (∃ m ∈ s.getAvailableMoves,
        ai.minimax (s.makeMove m ai.humanPlayer) true = some v) ∧
      ∀ m ∈ s.getAvailableMoves,
        ∃ w, ai.minimax (s.makeMove m ai.humanPlayer) true = some w ∧ v ≤ w) := by
  have hne := getAvailableMoves_ne_nil s h9 h3
  constructor
  · obtain ⟨v, hv, hex, hall⟩ := scoreLoop_max_children ai hh hc s h9 hne
    exact ⟨v, (minimax_step_max ai hh hc s h9 h1 h2 h3).trans hv, hex, hall⟩
  · obtain ⟨v, hv, hex, hall⟩ := scoreLoop_min_children ai hh hc s h9 hne
    exact ⟨v, (minimax_step_min ai hh hc s h9 h1 h2 h3).trans hv, hex, hall⟩

theorem minimax_recursive_step_witness :
    (GameState.mk ['X', 'O', 'X', 'O', 'O', 'X', ' ', 'X', ' ']).board.length = 9 ∧
      ∃ v, (TicTacToeTree.mk 'X' 'O').minimax
          (GameState.mk ['X', 'O', 'X', 'O', 'O', 'X', ' ', 'X', ' ']) true = some v ∧
        (∃ m ∈ (GameState.mk ['X', 'O', 'X', 'O', 'O', 'X', ' ', 'X', ' ']).getAvailableMoves,
          (TicTacToeTree.mk 'X' 'O').minimax
            ((GameState.mk ['X', 'O', 'X', 'O', 'O', 'X', ' ', 'X', ' ']).makeMove m 'O')
            false = some v) ∧
        ∀ m ∈ (GameState.mk ['X', 'O', 'X', 'O', 'O', 'X', ' ', 'X', ' ']).getAvailableMoves,
          ∃ w, (TicTacToeTree.mk 'X' 'O').minimax
            ((GameState.mk ['X', 'O', 'X', 'O', 'O', 'X', ' ', 'X', ' ']).makeMove m 'O')
            false = some w ∧ w ≤ v :=
  ⟨by decide,
    (minimax_recursive_step ⟨'X', 'O'⟩ ⟨['X', 'O', 'X', 'O', 'O', 'X', ' ', 'X', ' ']⟩
      (by decide) (by decide) (by decide) (by decide) (by decide) (by decide)).1⟩

/-- C6. Sign inversion under role swap: on a 9-cell board, for either turn flag
and distinct non-blank marks `a` and `b`, the engine with human `a` and computer
`b` returns a score `v`, and the engine with human `b` and computer `a` returns
`-v` on the same board with the turn flag negated. -/
theorem minimax_role_swap (P : GameState) (t : Bool) (a b : Char)
    (h9 : P.board.length = 9) (ha : a ≠ EMPTY) (hb : b ≠ EMPTY) (hab : a ≠ b) :
    ∃ v, (TicTacToeTree.mk a b).minimax P t = some v ∧
      (TicTacToeTree.mk b a).minimax P (!t) = some (-v) := by
  obtain ⟨v, hv⟩ := minimax_isSome ⟨a, b⟩ ha hb P t h9
  exact ⟨v, hv, minimax_swap a b hab P t v h9 hv⟩

theorem minimax_role_swap_witness :
    (GameState.mk ['X', 'X', ' ', 'O', 'O', ' ', ' ', ' ', ' ']).board.length = 9 ∧
      ('X' : Char) ≠ EMPTY ∧ ('O' : Char) ≠ EMPTY ∧ ('X' : Char) ≠ 'O' ∧
      ∃ v, (TicTacToeTree.mk 'X' 'O').minimax
          (GameState.mk ['X', 'X', ' ', 'O', 'O', ' ', ' ', ' ', ' ']) true = some v ∧
        (TicTacToeTree.mk 'O' 'X').minimax
          (GameState.mk ['X', 'X', ' ', 'O', 'O', ' ', ' ', ' ', ' ']) (!true) = some (-v) :=
  ⟨by decide, by decide, by decide, by decide,
    minimax_role_swap ⟨['X', 'X', ' ', 'O', 'O', ' ', ' ', ' ', ' ']⟩ true 'X' 'O'
      (by decide) (by decide) (by decide) (by decide)⟩

/-- C7. Characterisation of `checkWinner` on a 9-cell board.  The table holds the
8 patterns in the listed order; the result is blank exactly when no pattern has
three equal non-blank cells; otherwise it is the mark of the first such pattern
in table order; and a non-blank result occupies some pattern in full. -/
theorem checkWinner_characterisation (s : GameState) (h9 : s.board.length = 9) :
    winPatterns = [(0, 1, 2), (3, 4, 5), (6, 7, 8), (0, 3, 6), (1, 4, 7), (2, 5, 8),
      (0, 4, 8), (2, 4, 6)] ∧
    (s.checkWinner = EMPTY ↔ ∀ p ∈ winPatterns, ¬ s.threeInRow p) ∧
    (∀ pre p post, winPatterns = pre ++ p :: post → (∀ q ∈ pre, ¬ s.threeInRow q) →
      s.threeInRow p → s.checkWinner = s.cell p.1) ∧
    (s.checkWinner ≠ EMPTY →
      ∃ p ∈ winPatterns, s.cell p.1 = s.checkWinner ∧ s.cell p.2.1 = s.checkWinner ∧
        s.cell p.2.2 = s.checkWinner) ∧
    (∀ i, i < 9 → s.board[i]? = some (s.cell i)) := by
  refine ⟨rfl, checkWinner_eq_empty_iff s, ?_, ?_, ?_⟩
  · intro pre p post hsplit hpre hp
    rw [checkWinner, hsplit]
    exact checkWinnerLoop_first s pre p post hpre hp
  · intro h
    obtain ⟨p, hp, -, h1, h2, h3⟩ := checkWinner_owner s h
    exact ⟨p, hp, h1, h2, h3⟩
  · intro i hi
    rw [cell_eq_getElem s i (by omega), List.getElem?_eq_getElem (by omega)]

theorem checkWinner_characterisation_witness :
    (GameState.mk ['X', 'O', 'X', 'O', 'O', 'O', 'X', 'X', ' ']).board.length = 9 ∧
      (GameState.mk ['X', 'O', 'X', 'O', 'O', 'O', 'X', 'X', ' ']).checkWinner = 'O' :=
  ⟨by decide,
    (checkWinner_characterisation ⟨['X', 'O', 'X', 'O', 'O', 'O', 'X', 'X', ' ']⟩
      (by decide)).2.2.1 [(0, 1, 2)] (3, 4, 5) _ rfl (by decide) (by decide)⟩

/-- C8. Terminal detection on a 9-cell board: `isGameOver` is true exactly when
some win pattern holds three equal non-blank cells or no cell is blank.  So a
completed line ends the game even when blank cells remain, and a board without
blank cells and without a completed line has a blank `checkWinner` and is over. -/
theorem isGameOver_characterisation (s : GameState) (h9 : s.board.length = 9) :
    (s.isGameOver = true ↔ (∃ p ∈ winPatterns, s.threeInRow p) ∨ EMPTY ∉ s.board) ∧
    ((∃ p ∈ winPatterns, s.threeInRow p) → s.isGameOver = true) ∧
    (EMPTY ∉ s.board → (∀ p ∈ winPatterns, ¬ s.threeInRow p) →
      s.checkWinner = EMPTY ∧ s.isGameOver = true) := by
  have hfull : s.isFull = true ↔ EMPTY ∉ s.board := by
    rw [not_mem_board_iff s h9, isFull_iff_cells s h9]
  have hover : s.isGameOver = true ↔ (∃ p ∈ winPatterns, s.threeInRow p) ∨ EMPTY ∉ s.board := by
    rw [← hfull, ← checkWinner_ne_empty_iff]
    simp [isGameOver]
  refine ⟨hover, fun h => hover.2 (Or.inl h), fun h1 h2 => ⟨?_, hover.2 (Or.inr h1)⟩⟩
  exact (checkWinner_eq_empty_iff s).2 h2

theorem isGameOver_characterisation_witness :
    (GameState.mk ['X', 'X', 'X', 'O', 'O', ' ', ' ', ' ', ' ']).board.length = 9 ∧
      (GameState.mk ['X', 'X', 'X', 'O', 'O', ' ', ' ', ' ', ' ']).isGameOver = true :=
  ⟨by decide,
    (isGameOver_characterisation ⟨['X', 'X', 'X', 'O', 'O', ' ', ' ', ' ', ' ']⟩
      (by decide)).2.1 ⟨(0, 1, 2), by decide, by decide⟩⟩

/-- C9. On a 9-cell board `getAvailableMoves` is strictly ascending, hence free of
duplicates, and contains an index `i` exactly when `i ≤ 8` and cell `i` is
blank. -/
theorem getAvailableMoves_exact_sorted (s : GameState) (h9 : s.board.length = 9) :
    s.getAvailableMoves.Pairwise (· < ·) ∧ s.getAvailableMoves.Nodup ∧
      ∀ i, i ∈ s.getAvailableMoves ↔ (i ≤ 8 ∧ s.board[i]? = some EMPTY) := by
  refine ⟨getAvailableMoves_pairwise s, ?_, ?_⟩
  · exact (getAvailableMoves_pairwise s).imp (fun h => Nat.ne_of_lt h)
  · intro i
    rw [mem_getAvailableMoves, cell_eq_empty_iff s h9]
    constructor
    · intro h
      obtain ⟨hi, -⟩ := List.getElem?_eq_some.1 h
      exact ⟨by omega, h⟩
    · exact fun h => h.2

theorem getAvailableMoves_exact_sorted_witness :
    (GameState.mk ['X', 'X', ' ', 'O', 'O', ' ', ' ', ' ', ' ']).board.length = 9 ∧
      (GameState.mk ['X', 'X', ' ', 'O', 'O', ' ', ' ', ' ', ' ']).getAvailableMoves.Pairwise
        (· < ·) :=
  ⟨by decide,
    (getAvailableMoves_exact_sorted ⟨['X', 'X', ' ', 'O', 'O', ' ', ' ', ' ', ' ']⟩
      (by decide)).1⟩

/-- C10. On a 9-cell board `isFull` is true exactly when no cell is blank, and
that holds exactly when `getAvailableMoves` is the empty sequence. -/
theorem isFull_iff_no_moves (s : GameState) (h9 : s.board.length = 9) :
    (s.isFull = true ↔ EMPTY ∉ s.board) ∧ (EMPTY ∉ s.board ↔ s.getAvailableMoves = []) ∧
      (s.isFull = true ↔ s.getAvailableMoves = []) := by
  have h1 : s.isFull = true ↔ EMPTY ∉ s.board := by
    rw [not_mem_board_iff s h9, isFull_iff_cells s h9]
  have h2 : EMPTY ∉ s.board ↔ s.getAvailableMoves = [] := by
    rw [not_mem_board_iff s h9, getAvailableMoves_eq_nil_iff]
  exact ⟨h1, h2, h1.trans h2⟩

theorem isFull_iff_no_moves_witness :
    (GameState.mk ['X', 'O', 'X', 'X', 'O', 'O', 'O', 'X', 'X']).board.length = 9 ∧
      ((GameState.mk ['X', 'O', 'X', 'X', 'O', 'O', 'O', 'X', 'X']).isFull = true ↔
        (GameState.mk ['X', 'O', 'X', 'X', 'O', 'O', 'O', 'X', 'X']).getAvailableMoves = []) :=
  ⟨by decide,
    (isFull_iff_no_moves ⟨['X', 'O', 'X', 'X', 'O', 'O', 'O', 'X', 'X']⟩ (by decide)).2.2⟩

/-- C11. Frame of `makeMove` on a 9-cell board, for an index `i ≤ 8` and any mark
`p`: the call returns a state with 9 cells whose cell `i` is `p` and whose every
other cell is the receiver's, and the receiver is the same after the call. -/
theorem makeMove_frame (s : GameState) (i : Nat) (p : Char) (h9 : s.board.length = 9)
    (hi : i ≤ 8) :
    ∃ r, s.makeMoveCall i p = some (s, r) ∧ r = s.makeMove i p ∧ r.board.length = 9 ∧
      r.board[i]? = some p ∧ ∀ j, j ≠ i → r.board[j]? = s.board[j]? := by
  refine ⟨s.makeMove i p, ?_, rfl, by rw [length_makeMove]; exact h9, ?_, ?_⟩
  · rw [GameState.makeMoveCall, if_pos (by omega)]
    rfl
  · simp [makeMove, List.getElem?_set, show i < s.board.length by omega]
  · intro j hj
    simp [makeMove, List.getElem?_set, Ne.symm hj]

theorem makeMove_frame_witness :
    (GameState.mk ['X', 'X', ' ', 'O', 'O', ' ', ' ', ' ', ' ']).board.length = 9 ∧
      (2 : Nat) ≤ 8 ∧
      ∃ r, (GameState.mk ['X', 'X', ' ', 'O', 'O', ' ', ' ', ' ', ' ']).makeMoveCall 2 'O'
          = some (GameState.mk ['X', 'X', ' ', 'O', 'O', ' ', ' ', ' ', ' '], r) ∧
        r = (GameState.mk ['X', 'X', ' ', 'O', 'O', ' ', ' ', ' ', ' ']).makeMove 2 'O' ∧
        r.board.length = 9 ∧ r.board[2]? = some 'O' ∧
        ∀ j, j ≠ 2 →
          r.board[j]? = (GameState.mk ['X', 'X', ' ', 'O', 'O', ' ', ' ', ' ', ' ']).board[j]? :=
  ⟨by decide, by decide,
    makeMove_frame ⟨['X', 'X', ' ', 'O', 'O', ' ', ' ', ' ', ' ']⟩ 2 'O' (by decide)
      (by decide)⟩

/-- C12. Every optimal move can be chosen.  On a 9-cell board with a blank cell
and non-blank marks, the list `bestMoves` at the end of `findBestMove` holds the
available moves of maximal child score in ascending order, the result for a
draw `r` is its element at position `r` modulo its length, and every available
move whose child score is the maximum is returned for some draw. -/
theorem findBestMove_every_optimal (ai : TicTacToeTree) (s : GameState)
    (h9 : s.board.length = 9) (he : EMPTY ∈ s.board)
    (hh : ai.humanPlayer ≠ EMPTY) (hc : ai.computerPlayer ≠ EMPTY) :
    (∃ best tied,
      tied = s.getAvailableMoves.filter (fun m =>
        decide (ai.minimax (s.makeMove m ai.computerPlayer) false = some best)) ∧
      (∀ k ∈ s.getAvailableMoves,
        ∃ w, ai.minimax (s.makeMove k ai.computerPlayer) false = some w ∧ w ≤ best) ∧
      tied ≠ [] ∧ tied.Pairwise (· < ·) ∧
      ∀ r, ai.findBestMove s r = tied[r % tied.length]?) ∧
    ∀ m ∈ s.getAvailableMoves, ∀ v,
      ai.minimax (s.makeMove m ai.computerPlayer) false = some v →
      (∀ k ∈ s.getAvailableMoves,
        ∃ w, ai.minimax (s.makeMove k ai.computerPlayer) false = some w ∧ w ≤ v) →
      ∃ r, ai.findBestMove s r = some m := by
  have hne := getAvailableMoves_ne_nil_of_mem s h9 he
  obtain ⟨best, hb, ⟨m0, hm0, hm0v⟩, hall⟩ := scoreLoop_max_children ai hh hc s h9 hne
  have hfind : ∀ r, ai.findBestMove s r =
      (s.getAvailableMoves.filter (fun m =>
        decide (ai.minimax (s.makeMove m ai.computerPlayer) false = some best)))[r %
          (s.getAvailableMoves.filter (fun m =>
            decide (ai.minimax (s.makeMove m ai.computerPlayer) false = some best))).length]? := by
    intro r
    obtain ⟨b', tied, hb', htied, -, hfm⟩ := findBestMove_eq ai hh hc s h9 hne r
    rw [hb, Option.some.injEq] at hb'
    subst hb'
    rw [hfm, htied]
  have hnil : s.getAvailableMoves.filter (fun m =>
      decide (ai.minimax (s.makeMove m ai.computerPlayer) false = some best)) ≠ [] :=
    List.ne_nil_of_mem (List.mem_filter.2 ⟨hm0, by simpa using hm0v⟩)
  refine ⟨⟨best, _, rfl, hall, hnil, (getAvailableMoves_pairwise s).filter _, hfind⟩, ?_⟩
  intro m hm v hmv hmax
  have hv : v = best := by
    obtain ⟨w, hw, hwv⟩ := hmax m0 hm0
    rw [hm0v, Option.some.injEq] at hw
    obtain ⟨w', hw', hwb⟩ := hall m hm
    rw [hmv, Option.some.injEq] at hw'
    omega
  subst hv
  have hmem : m ∈ s.getAvailableMoves.filter (fun m =>
      decide (ai.minimax (s.makeMove m ai.computerPlayer) false = some v)) :=
    List.mem_filter.2 ⟨hm, by simpa using hmv⟩
  obtain ⟨k, hk, hkm⟩ := List.getElem_of_mem hmem
  refine ⟨k, ?_⟩
  rw [hfind k, Nat.mod_eq_of_lt hk, List.getElem?_eq_getElem hk, hkm]

theorem findBestMove_every_optimal_witness :
    (GameState.mk ['X', 'O', 'X', 'O', 'O', 'X', ' ', 'X', ' ']).board.length = 9 ∧
      EMPTY ∈ (GameState.mk ['X', 'O', 'X', 'O', 'O', 'X', ' ', 'X', ' ']).board ∧
      (TicTacToeTree.mk 'X' 'O').humanPlayer ≠ EMPTY ∧
      (TicTacToeTree.mk 'X' 'O').computerPlayer ≠ EMPTY ∧
      ∃ best tied,
        tied = (GameState.mk ['X', 'O', 'X', 'O', 'O', 'X', ' ', 'X', ' ']).getAvailableMoves.filter
          (fun m => decide ((TicTacToeTree.mk 'X' 'O').minimax
            ((GameState.mk ['X', 'O', 'X', 'O', 'O', 'X', ' ', 'X', ' ']).makeMove m 'O') false
              = some best)) ∧
        (∀ k ∈ (GameState.mk ['X', 'O', 'X', 'O', 'O', 'X', ' ', 'X', ' ']).getAvailableMoves,
          ∃ w, (TicTacToeTree.mk 'X' 'O').minimax
            ((GameState.mk ['X', 'O', 'X', 'O', 'O', 'X', ' ', 'X', ' ']).makeMove k 'O') false
              = some w ∧ w ≤ best) ∧
        tied ≠ [] ∧ tied.Pairwise (· < ·) ∧
        ∀ r, (TicTacToeTree.mk 'X' 'O').findBestMove
          (GameState.mk ['X', 'O', 'X', 'O', 'O', 'X', ' ', 'X', ' ']) r
            = tied[r % tied.length]? :=
  ⟨by decide, by decide, by decide, by decide,
    (findBestMove_every_optimal ⟨'X', 'O'⟩ ⟨['X', 'O', 'X', 'O', 'O', 'X', ' ', 'X', ' ']⟩
      (by decide) (by decide) (by decide) (by decide)).1⟩

/-! ## Concrete positions -/

theorem getAvailableMoves_init : GameState.init.getAvailableMoves = List.range 9 := by
  decide

theorem bitAtLeast_init_children :
    allCell (fun b => bitAtLeast 9 0 b false 0) = true := by
  decide!

theorem atLeast_init_children :
    (List.range 9).all (fun m =>
      (TicTacToeTree.mk 'X' 'O').atLeast 9 (GameState.init.makeMove m 'O') false 0) = true := by
  rw [List.all_eq_true]
  intro m hm
  have hm9 : m < 9 := List.mem_range.1 hm
  have hbit := (allCell_iff _).1 bitAtLeast_init_children m hm9
  have h := bitAtLeast_sound ⟨'X', 'O'⟩ (by decide) (by decide) (by decide) 9 0 (2 ^ m)
    false 0 (by decide) (pow_lt_512 m hm9) hbit
  have hchild := makeMove_bitBoard_computer ⟨'X', 'O'⟩ 0 0 m hm9
  rw [Nat.zero_or, bitBoard_init] at hchild
  rw [← hchild] at h
  exact h

theorem atMost_init_children :
    (List.range 9).all (fun m =>
      (TicTacToeTree.mk 'X' 'O').atMost 9 (GameState.init.makeMove m 'O') false 0) = true := by
  have h := atMost_init
  rw [atMost_succ _ 9 GameState.init true 0 rfl, if_neg (by decide), if_neg (by decide),
    if_neg (by decide), if_pos rfl, getAvailableMoves_init] at h
  exact h

theorem minimax_init_child_XO (m : Nat) (hm : m < 9) :
    (TicTacToeTree.mk 'X' 'O').minimax (GameState.init.makeMove m 'O') false = some 0 := by
  have hlo := List.all_eq_true.1 atLeast_init_children m (List.mem_range.2 hm)
  have hhi := List.all_eq_true.1 atMost_init_children m (List.mem_range.2 hm)
  exact minimax_eq_of_bounds _ (by decide) (by decide) 9 9 _ _ _ hlo hhi

/-- Every opening move of the computer leads to a drawn position. -/
theorem minimax_init_child (ai : TicTacToeTree) (hh : ai.humanPlayer ≠ EMPTY)
    (hc : ai.computerPlayer ≠ EMPTY) (hd : ai.humanPlayer ≠ ai.computerPlayer)
    (m : Nat) (hm : m < 9) :
    ai.minimax (GameState.init.makeMove m ai.computerPlayer) false = some 0 := by
  obtain ⟨σ, hσ, h0, hX, hO⟩ := exists_renaming _ _ hh hc hd
  have := minimax_rename σ hσ h0 'X' 'O' (GameState.init.makeMove m 'O') false
  rw [← makeMove_rename, rename_init σ h0, hX, hO, minimax_init_child_XO m hm] at this
  exact this

/-- On the empty board all nine moves tie, so the draw alone picks the move. -/
theorem findBestMove_init (ai : TicTacToeTree) (hh : ai.humanPlayer ≠ EMPTY)
    (hc : ai.computerPlayer ≠ EMPTY) (hd : ai.humanPlayer ≠ ai.computerPlayer) (r : Nat) :
    ai.findBestMove GameState.init r = some (r % 9) := by
  have hne : GameState.init.getAvailableMoves ≠ [] := by
    rw [getAvailableMoves_init]; decide
  obtain ⟨best, tied, hb, htied, -, hfm⟩ := findBestMove_eq ai hh hc GameState.init rfl hne r
  have hchild : ∀ m ∈ List.range 9,
      ai.minimax (GameState.init.makeMove m ai.computerPlayer) false = some 0 :=
    fun m hm => minimax_init_child ai hh hc hd m (List.mem_range.1 hm)
  rw [getAvailableMoves_init] at hb htied
  have h0 : scoreLoop max
      (fun move => ai.minimax (GameState.init.makeMove move ai.computerPlayer) false)
      INT_MIN (List.range 9) = some 0 :=
    scoreLoop_max_unique _ _ _ _ (fun m hm => ⟨0, hchild m hm, le_refl _⟩)
      ⟨0, by decide, hchild 0 (by decide)⟩ (by rw [INT_MIN]; omega)
  rw [h0, Option.some.injEq] at hb
  subst hb
  have hall : tied = List.range 9 := by
    rw [htied, List.filter_eq_self]
    intro m hm
    simpa using hchild m hm
  rw [hfm, hall, List.length_range, List.getElem?_range (Nat.mod_lt r (by decide))]

/-- The loop result of `findBestMove` decides its answer for every draw. -/
theorem findBestMove_of_loop (ai : TicTacToeTree) (s : GameState) (best : Int)
    (tied : List Nat) (r : Nat)
    (h : ai.findBestMoveLoop s INT_MIN [] s.getAvailableMoves = some (best, tied)) :
    ai.findBestMove s r = if tied.length = 0 then none else tied[r % tied.length]? := by
  rw [findBestMove, h]

theorem findBestMoveLoop_row_threat :
    (TicTacToeTree.mk 'X' 'O').findBestMoveLoop
      ⟨['X', 'X', ' ', 'O', 'O', ' ', ' ', ' ', ' ']⟩ INT_MIN []
      (GameState.mk ['X', 'X', ' ', 'O', 'O', ' ', ' ', ' ', ' ']).getAvailableMoves
        = some (1, [2, 5]) := by
  decide!

/-- On `[X,X,_, O,O,_, _,_,_]` with computer `O` the tied list is `[2, 5]`: an
even draw gives the block at 2 and an odd draw the win at 5. -/
theorem findBestMove_row_threat (r : Nat) :
    (TicTacToeTree.mk 'X' 'O').findBestMove
      ⟨['X', 'X', ' ', 'O', 'O', ' ', ' ', ' ', ' ']⟩ r
        = some (if r % 2 = 0 then 2 else 5) := by
  rw [findBestMove_of_loop _ _ _ _ r findBestMoveLoop_row_threat]
  rcases Nat.mod_two_eq_zero_or_one r with h | h <;> simp [h]

theorem minimax_after_block :
    (TicTacToeTree.mk 'X' 'O').minimax
      ⟨['X', 'X', 'O', 'O', 'O', ' ', ' ', ' ', ' ']⟩ false = some 1 := by
  decide!

/-! ## The claims, continued -/

/-- C13, as stated, fails: on the empty board with human `X` and computer `O` the
draw 5 makes `findBestMove` return 5, which is not in `{0,1,2,3,4,6,8}`. -/
theorem findBestMove_opening_counterexample :
    ¬ ∃ m, (TicTacToeTree.mk 'X' 'O').findBestMove GameState.init 5 = some m ∧
      m ∈ [0, 1, 2, 3, 4, 6, 8] := by
  rw [findBestMove_init ⟨'X', 'O'⟩ (by decide) (by decide) (by decide) 5]
  decide

/-- C13, amended.  On the empty board, for distinct non-blank marks, all nine
opening moves have child score 0 and `findBestMove` returns the draw modulo 9:
always an index in `0..8`, and each of them, 5 and 7 included, for some draw. -/
theorem findBestMove_opening (ai : TicTacToeTree) (hh : ai.humanPlayer ≠ EMPTY)
    (hc : ai.computerPlayer ≠ EMPTY) (hd : ai.humanPlayer ≠ ai.computerPlayer) :
    (∀ m, m < 9 → ai.minimax (GameState.init.makeMove m ai.computerPlayer) false = some 0) ∧
    (∀ r, ai.findBestMove GameState.init r = some (r % 9) ∧ r % 9 ≤ 8) ∧
    ∀ m, m ≤ 8 → ∃ r, ai.findBestMove GameState.init r = some m := by
  refine ⟨minimax_init_child ai hh hc hd, ?_, ?_⟩
  · intro r
    exact ⟨findBestMove_init ai hh hc hd r, by omega⟩
  · intro m hm
    refine ⟨m, ?_⟩
    rw [findBestMove_init ai hh hc hd m, Nat.mod_eq_of_lt (by omega)]

theorem findBestMove_opening_witness :
    (TicTacToeTree.mk 'X' 'O').humanPlayer ≠ EMPTY ∧
      (TicTacToeTree.mk 'X' 'O').computerPlayer ≠ EMPTY ∧
      (TicTacToeTree.mk 'X' 'O').humanPlayer ≠ (TicTacToeTree.mk 'X' 'O').computerPlayer ∧
      (TicTacToeTree.mk 'X' 'O').findBestMove GameState.init 7 = some (7 % 9) :=
  ⟨by decide, by decide, by decide,
    ((findBestMove_opening ⟨'X', 'O'⟩ (by decide) (by decide) (by decide)).2.1 7).1⟩

/-- C14, as stated, fails: on `[X,X,_, O,O,_, _,_,_]` with computer `O` and human
`X` the draw 0 makes `findBestMove` return 2, not 5. -/
theorem findBestMove_win_counterexample :
    (TicTacToeTree.mk 'X' 'O').findBestMove
      ⟨['X', 'X', ' ', 'O', 'O', ' ', ' ', ' ', ' ']⟩ 0 ≠ some 5 := by
  rw [findBestMove_row_threat 0]
  decide

/-- C14, amended.  On `[X,X,_, O,O,_, _,_,_]` with computer `O` and human `X`,
`findBestMove` returns 5 exactly for the odd values of the random draw, and 2
for the others. -/
theorem findBestMove_win_iff_odd (r : Nat) :
    ((TicTacToeTree.mk 'X' 'O').findBestMove
        ⟨['X', 'X', ' ', 'O', 'O', ' ', ' ', ' ', ' ']⟩ r = some 5 ↔ r % 2 = 1) ∧
    (r % 2 ≠ 1 → (TicTacToeTree.mk 'X' 'O').findBestMove
        ⟨['X', 'X', ' ', 'O', 'O', ' ', ' ', ' ', ' ']⟩ r = some 2) := by
  rw [findBestMove_row_threat r]
  rcases Nat.mod_two_eq_zero_or_one r with h | h <;> simp [h]

/-- C15, as stated, fails: on `[X,X,_, O,O,_, _,_,_]` with computer `O` and human
`X` the draw 1 makes `findBestMove` return 5, not the block at 2. -/
theorem findBestMove_block_counterexample :
    (TicTacToeTree.mk 'X' 'O').findBestMove
      ⟨['X', 'X', ' ', 'O', 'O', ' ', ' ', ' ', ' ']⟩ 1 ≠ some 2 := by
  rw [findBestMove_row_threat 1]
  decide

/-- C15, amended.  On `[X,X,_, O,O,_, _,_,_]` with computer `O` and human `X`,
`findBestMove` selects the block at index 2 exactly for the even values of the
random draw, and the winning move 5 for the others. -/
theorem findBestMove_block_iff_even (r : Nat) :
    ((TicTacToeTree.mk 'X' 'O').findBestMove
        ⟨['X', 'X', ' ', 'O', 'O', ' ', ' ', ' ', ' ']⟩ r = some 2 ↔ r % 2 = 0) ∧
    (r % 2 ≠ 0 → (TicTacToeTree.mk 'X' 'O').findBestMove
        ⟨['X', 'X', ' ', 'O', 'O', ' ', ' ', ' ', ' ']⟩ r = some 5) := by
  rw [findBestMove_row_threat r]
  rcases Nat.mod_two_eq_zero_or_one r with h | h <;> simp [h]

/-- C16. Blocking does not lose: with computer `O` and human `X`, placing `O` at
index 2 of `[X,X,_, O,O,_, _,_,_]` gives `[X,X,O, O,O,_, _,_,_]`, whose score
with the human to move is a returned value that is at least 0 (it is `+1`). -/
theorem minimax_block_not_losing :
    (GameState.mk ['X', 'X', ' ', 'O', 'O', ' ', ' ', ' ', ' ']).makeMove 2 'O' =
        ⟨['X', 'X', 'O', 'O', 'O', ' ', ' ', ' ', ' ']⟩ ∧
      ∃ v, (TicTacToeTree.mk 'X' 'O').minimax
          ((GameState.mk ['X', 'X', ' ', 'O', 'O', ' ', ' ', ' ', ' ']).makeMove 2 'O') false
            = some v ∧ 0 ≤ v :=
  ⟨rfl, 1, minimax_after_block, by decide⟩

/-! ## Alternating play -/

theorem threeInRow_makeMove (s : GameState) (i : Nat) (p : Char) (hi : i < s.board.length)
    (hnone : ∀ q ∈ winPatterns, ¬ s.threeInRow q) (q : Nat × Nat × Nat)
    (hq : q ∈ winPatterns) (hwon : (s.makeMove i p).threeInRow q) :
    (s.makeMove i p).cell q.1 = p := by
  obtain ⟨h1, h2, h3⟩ := hwon
  by_cases e1 : i = q.1
  · rw [← e1]
    exact cell_makeMove_same s i p hi
  · by_cases e2 : i = q.2.1
    · rw [h2, ← e2]
      exact cell_makeMove_same s i p hi
    · by_cases e3 : i = q.2.2
      · rw [h2, h3, ← e3]
        exact cell_makeMove_same s i p hi
      · exfalso
        apply hnone q hq
        rw [cell_makeMove_other s i _ p e1] at h1 h2
        rw [cell_makeMove_other s i _ p e2] at h2 h3
        rw [cell_makeMove_other s i _ p e3] at h3
        exact ⟨h1, h2, h3⟩

theorem oneWinner_makeMove (s : GameState) (i : Nat) (p : Char) (hi : i < s.board.length)
    (hover : ¬ s.isGameOver = true) : (s.makeMove i p).oneWinner := by
  have hnone := (checkWinner_eq_empty_iff s).1 (isGameOver_eq_false s hover).1
  intro a ha b hb hwa hwb
  rw [threeInRow_makeMove s i p hi hnone a ha hwa, threeInRow_makeMove s i p hi hnone b hb hwb]

theorem oneWinner_init : GameState.init.oneWinner := by
  intro a ha b _ hwa _
  exact absurd hwa ((by decide : ∀ q ∈ winPatterns, ¬ GameState.init.threeInRow q) a ha)

/-- When at most one mark holds completed patterns, the order in which the
patterns are examined does not change the result of the `checkWinner` loop. -/
theorem checkWinnerLoop_perm (s : GameState) (h1 : s.oneWinner)
    (l : List (Nat × Nat × Nat)) (hl : l.Perm winPatterns) :
    s.checkWinnerLoop l = s.checkWinner := by
  rcases checkWinnerLoop_split s l with ⟨he, hnone⟩ | ⟨pre, p, post, hsplit, -, hp, hres⟩
  · rw [he]
    exact ((checkWinner_eq_empty_iff s).2 (fun q hq => hnone q (hl.mem_iff.2 hq))).symm
  · have hpm : p ∈ winPatterns := hl.mem_iff.1 (by rw [hsplit]; simp)
    obtain ⟨q, hq, hwq, hcq, -, -⟩ :=
      checkWinner_owner s ((checkWinner_ne_empty_iff s).2 ⟨p, hpm, hp⟩)
    rw [hres, h1 p hpm q hq hp hwq, hcq]

theorem alternatingPlay_nil (g : Game) : alternatingPlay g [] = some g := rfl

theorem alternatingPlay_cons (g : Game) (move : Nat) (rest : List Nat) :
    alternatingPlay g (move :: rest) =
      match alternatingStep g move with
      | none => none
      | some g' => alternatingPlay g' rest := rfl

theorem alternatingPlay_inv (moves : List Nat) (g0 g : Game)
    (h9 : g0.state.board.length = 9) (h1 : g0.state.oneWinner)
    (h : alternatingPlay g0 moves = some g) :
    g.state.board.length = 9 ∧ g.state.oneWinner := by
  induction moves generalizing g0 with
  | nil =>
    rw [alternatingPlay_nil, Option.some.injEq] at h
    subst h
    exact ⟨h9, h1⟩
  | cons m rest ih =>
    rw [alternatingPlay_cons] at h
    cases hst : alternatingStep g0 m with
    | none => simp [hst] at h
    | some g1 =>
      rw [hst] at h
      simp only at h
      unfold alternatingStep at hst
      by_cases hover : g0.state.isGameOver = true
      · simp [hover] at hst
      · rw [if_neg hover] at hst
        by_cases hm : m < 9 ∧ g0.state.cell m = EMPTY
        · rw [if_pos hm, Option.some.injEq] at hst
          subst hst
          exact ih _ (by rw [length_makeMove]; exact h9)
            (oneWinner_makeMove _ _ _ (by omega) hover) h
        · simp [hm] at hst

theorem playStep_oneWinner (human computer : Char) (hh : human ≠ EMPTY)
    (hc : computer ≠ EMPTY) (g g' : Game) (input : Int) (r : Nat)
    (h9 : g.state.board.length = 9) (h1 : g.state.oneWinner)
    (hstep : playStep human computer g input r = some g') :
    g'.state.board.length = 9 ∧ g'.state.oneWinner := by
  unfold playStep at hstep
  by_cases hover : g.state.isGameOver = true
  · simp [hover] at hstep
  · rw [if_neg hover] at hstep
    by_cases hturn : g.currentPlayer = human
    · rw [if_pos hturn] at hstep
      by_cases hin : 0 ≤ input ∧ input < 9 ∧ g.state.cell input.toNat = EMPTY
      · rw [if_pos hin, Option.some.injEq] at hstep
        subst hstep
        exact ⟨by rw [length_makeMove]; exact h9,
          oneWinner_makeMove _ _ _ (by omega) hover⟩
      · rw [if_neg hin, Option.some.injEq] at hstep
        subst hstep
        exact ⟨h9, h1⟩
    · rw [if_neg hturn] at hstep
      have hne := getAvailableMoves_ne_nil g.state h9 (isGameOver_eq_false g.state hover).2
      obtain ⟨m, best, hfm, hm, -, -⟩ :=
        findBestMove_mem ⟨human, computer⟩ hh hc g.state h9 hne r
      rw [hfm] at hstep
      simp only [Option.some.injEq] at hstep
      subst hstep
      have hlt := ((mem_getAvailableMoves g.state m).1 hm).1
      exact ⟨by rw [length_makeMove]; exact h9,
        oneWinner_makeMove _ _ _ (by omega) hover⟩

theorem playLoop_oneWinner (human computer : Char) (hh : human ≠ EMPTY)
    (hc : computer ≠ EMPTY) (inputs : List (Int × Nat)) (g : Game)
    (h9 : g.state.board.length = 9) (h1 : g.state.oneWinner) :
    (playLoop human computer g inputs).state.oneWinner := by
  induction inputs generalizing g with
  | nil =>
    rw [playLoop_nil]
    exact h1
  | cons x rest ih =>
    obtain ⟨input, r⟩ := x
    rw [playLoop_cons]
    cases hst : playStep human computer g input r with
    | none => exact h1
    | some g' =>
      obtain ⟨h9', h1'⟩ := playStep_oneWinner human computer hh hc g g' input r h9 h1 hst
      exact ih g' h9' h1'

/-- C17, as stated, fails: on the 9-cell board `[X,X,_, O,O,_, _,_,_]` cell 0 is
occupied, yet the call `makeMove(0, 'O')` signals nothing and returns the board
with cell 0 overwritten. -/
theorem makeMove_occupied_counterexample :
    (GameState.mk ['X', 'X', ' ', 'O', 'O', ' ', ' ', ' ', ' ']).board.length = 9 ∧
      (GameState.mk ['X', 'X', ' ', 'O', 'O', ' ', ' ', ' ', ' ']).board[0]? = some 'X' ∧
      (GameState.mk ['X', 'X', ' ', 'O', 'O', ' ', ' ', ' ', ' ']).makeMoveCall 0 'O' ≠ none ∧
      (GameState.mk ['X', 'X', ' ', 'O', 'O', ' ', ' ', ' ', ' ']).makeMoveCall 0 'O' =
        some (⟨['X', 'X', ' ', 'O', 'O', ' ', ' ', ' ', ' ']⟩,
          ⟨['O', 'X', ' ', 'O', 'O', ' ', ' ', ' ', ' ']⟩) := by
  decide

/-- C17, amended.  `makeMove` makes no check of the target cell: on a 9-cell
board, for an in-range index `i` whose cell is not blank, the call returns a
state whose cell `i` is the new mark and whose other cells are unchanged, and
no failure is signalled.  The check is the caller's: in `playGame` a human
input that names a non-blank cell leaves the game as it was. -/
theorem makeMove_occupied_overwrites (s : GameState) (i : Nat) (p : Char)
    (h9 : s.board.length = 9) (hi : i ≤ 8) (hocc : s.board[i]? ≠ some EMPTY) :
    (∃ r, s.makeMoveCall i p = some (s, r) ∧ r = s.makeMove i p ∧
      r.board[i]? = some p ∧ ∀ j, j ≠ i → r.board[j]? = s.board[j]?) ∧
    ∀ human computer currentPlayer r,
      GameState.isGameOver s = false → currentPlayer = human →
      playStep human computer ⟨s, currentPlayer⟩ (Int.ofNat i) r = some ⟨s, currentPlayer⟩ := by
  constructor
  · refine ⟨s.makeMove i p, ?_, rfl, ?_, ?_⟩
    · rw [GameState.makeMoveCall, if_pos (by omega)]
      rfl
    · simp [makeMove, List.getElem?_set, show i < s.board.length by omega]
    · intro j hj
      simp [makeMove, List.getElem?_set, Ne.symm hj]
  · intro human computer currentPlayer r hover hturn
    have hcell : ¬ s.cell i = EMPTY := fun e =>
      hocc ((cell_eq_empty_iff s h9 i).1 ⟨by omega, e⟩)
    unfold playStep
    simp [hover, hturn, hcell]

theorem makeMove_occupied_overwrites_witness :
    (GameState.mk ['X', 'X', ' ', 'O', 'O', ' ', ' ', ' ', ' ']).board.length = 9 ∧
      (1 : Nat) ≤ 8 ∧
      (GameState.mk ['X', 'X', ' ', 'O', 'O', ' ', ' ', ' ', ' ']).board[1]? ≠ some EMPTY ∧
      ∃ r, (GameState.mk ['X', 'X', ' ', 'O', 'O', ' ', ' ', ' ', ' ']).makeMoveCall 1 'O'
          = some (GameState.mk ['X', 'X', ' ', 'O', 'O', ' ', ' ', ' ', ' '], r) ∧
        r = (GameState.mk ['X', 'X', ' ', 'O', 'O', ' ', ' ', ' ', ' ']).makeMove 1 'O' ∧
        r.board[1]? = some 'O' ∧
        ∀ j, j ≠ 1 →
          r.board[j]? = (GameState.mk ['X', 'X', ' ', 'O', 'O', ' ', ' ', ' ', ' ']).board[j]? :=
  ⟨by decide, by decide, by decide,
    (makeMove_occupied_overwrites ⟨['X', 'X', ' ', 'O', 'O', ' ', ' ', ' ', ' ']⟩ 1 'O'
      (by decide) (by decide) (by decide)).1⟩

/-- C18. At most one winner in reachable positions.  In every position reached
from the empty board by alternating moves (`X` first, each move on a blank cell,
none once the game is over) no two completed win patterns are held by different
marks, so the loop of `checkWinner` returns the same mark whatever the order in
which the 8 patterns are examined.  The same holds for every position reached
by the loop of `playGame`. -/
theorem one_winner_when_reachable (moves : List Nat) (g : Game)
    (h : alternatingPlay ⟨GameState.init, 'X'⟩ moves = some g) :
    (∀ p ∈ winPatterns, ∀ q ∈ winPatterns,
      g.state.threeInRow p → g.state.threeInRow q → g.state.cell p.1 = g.state.cell q.1) ∧
    (∀ l : List (Nat × Nat × Nat), l.Perm winPatterns →
      g.state.checkWinnerLoop l = g.state.checkWinner) ∧
    ∀ human inputs, human = 'X' ∨ human = 'O' →
      (∀ p ∈ winPatterns, ∀ q ∈ winPatterns,
        (playGame human inputs).state.threeInRow p →
        (playGame human inputs).state.threeInRow q →
        (playGame human inputs).state.cell p.1 = (playGame human inputs).state.cell q.1) ∧
      ∀ l : List (Nat × Nat × Nat), l.Perm winPatterns →
        (playGame human inputs).state.checkWinnerLoop l =
          (playGame human inputs).state.checkWinner := by
  obtain ⟨-, h1⟩ := alternatingPlay_inv moves ⟨GameState.init, 'X'⟩ g rfl oneWinner_init h
  refine ⟨h1, checkWinnerLoop_perm g.state h1, ?_⟩
  intro human inputs hX
  have hg : (playGame human inputs).state.oneWinner := by
    rcases hX with rfl | rfl
    · exact playLoop_oneWinner 'X' 'O' (by decide) (by decide) inputs
        ⟨GameState.init, 'X'⟩ rfl oneWinner_init
    · exact playLoop_oneWinner 'O' 'X' (by decide) (by decide) inputs
        ⟨GameState.init, 'X'⟩ rfl oneWinner_init
  exact ⟨hg, checkWinnerLoop_perm _ hg⟩

theorem one_winner_when_reachable_witness :
    alternatingPlay ⟨GameState.init, 'X'⟩ [0, 3, 1, 4, 2] =
        some ⟨⟨['X', 'X', 'X', 'O', 'O', ' ', ' ', ' ', ' ']⟩, 'O'⟩ ∧
      ∀ l : List (Nat × Nat × Nat), l.Perm winPatterns →
        (GameState.mk ['X', 'X', 'X', 'O', 'O', ' ', ' ', ' ', ' ']).checkWinnerLoop l =
          (GameState.mk ['X', 'X', 'X', 'O', 'O', ' ', ' ', ' ', ' ']).checkWinner :=
  ⟨by decide,
    (one_winner_when_reachable [0, 3, 1, 4, 2]
      ⟨⟨['X', 'X', 'X', 'O', 'O', ' ', ' ', ' ', ' ']⟩, 'O'⟩ (by decide)).2.1⟩

/-- C19. The recursion of `minimax` ends within depth 9.  On a 9-cell board with
non-blank marks every recursive call is made on a board with exactly one blank
cell fewer than its caller's, the board has at most 9 blank cells, and a budget
of one call per blank cell plus the outermost call already returns the score,
as does every larger budget. -/
theorem minimax_depth_bound (ai : TicTacToeTree) (s : GameState) (t : Bool)
    (h9 : s.board.length = 9) (hh : ai.humanPlayer ≠ EMPTY)
    (hc : ai.computerPlayer ≠ EMPTY) :
    s.emptyCount ≤ 9 ∧
    (∀ m ∈ s.getAvailableMoves,
      (s.makeMove m ai.computerPlayer).emptyCount + 1 = s.emptyCount ∧
      (s.makeMove m ai.humanPlayer).emptyCount + 1 = s.emptyCount) ∧
    ∃ v, ai.minimaxFuel (s.emptyCount + 1) s t = some v ∧
      ∀ fuel, s.emptyCount + 1 ≤ fuel → ai.minimaxFuel fuel s t = some v := by
  refine ⟨?_, ?_, ?_⟩
  · have := List.count_le_length EMPTY s.board
    rw [emptyCount]
    omega
  · intro m hm
    exact ⟨emptyCount_makeMove s m _ h9 hm hc, emptyCount_makeMove s m _ h9 hm hh⟩
  · obtain ⟨v, hv⟩ := minimaxFuel_total ai hh hc (s.emptyCount + 1) s t h9 (by omega)
    exact ⟨v, hv, fun fuel hf => minimaxFuel_mono ai _ fuel s t v hf hv⟩

theorem minimax_depth_bound_witness :
    (GameState.mk ['X', 'X', ' ', 'O', 'O', ' ', ' ', ' ', ' ']).board.length = 9 ∧
      (TicTacToeTree.mk 'X' 'O').humanPlayer ≠ EMPTY ∧
      (TicTacToeTree.mk 'X' 'O').computerPlayer ≠ EMPTY ∧
      (GameState.mk ['X', 'X', ' ', 'O', 'O', ' ', ' ', ' ', ' ']).emptyCount ≤ 9 :=
  ⟨by decide, by decide, by decide,
    (minimax_depth_bound ⟨'X', 'O'⟩ ⟨['X', 'X', ' ', 'O', 'O', ' ', ' ', ' ', ' ']⟩ true
      (by decide) (by decide) (by decide)).1⟩

/-- C20. Score range.  On a 9-cell board with non-blank marks and for either turn
flag `minimax` returns `-1`, `0` or `+1`; it never returns one of the sentinels
used to start `bestScore`, because a board that is not full has an available
move. -/
theorem minimax_score_range (ai : TicTacToeTree) (s : GameState) (t : Bool)
    (h9 : s.board.length = 9) (hh : ai.humanPlayer ≠ EMPTY)
    (hc : ai.computerPlayer ≠ EMPTY) :
    (∃ v, ai.minimax s t = some v ∧ (v = -1 ∨ v = 0 ∨ v = 1) ∧ v ≠ INT_MIN ∧ v ≠ INT_MAX) ∧
    (s.isFull = false → s.getAvailableMoves ≠ []) := by
  refine ⟨?_, getAvailableMoves_ne_nil s h9⟩
  obtain ⟨v, hv⟩ := minimax_isSome ai hh hc s t h9
  have hr := minimax_range ai s t v h9 hv
  refine ⟨v, hv, by omega, ?_, ?_⟩
  · rw [INT_MIN]; omega
  · rw [INT_MAX]; omega

theorem minimax_score_range_witness :
    (GameState.mk ['X', 'X', ' ', 'O', 'O', ' ', ' ', ' ', ' ']).board.length = 9 ∧
      (TicTacToeTree.mk 'X' 'O').humanPlayer ≠ EMPTY ∧
      (TicTacToeTree.mk 'X' 'O').computerPlayer ≠ EMPTY ∧
      ∃ v, (TicTacToeTree.mk 'X' 'O').minimax
          ⟨['X', 'X', ' ', 'O', 'O', ' ', ' ', ' ', ' ']⟩ true = some v ∧
        (v = -1 ∨ v = 0 ∨ v = 1) ∧ v ≠ INT_MIN ∧ v ≠ INT_MAX :=
  ⟨by decide, by decide, by decide,
    (minimax_score_range ⟨'X', 'O'⟩ ⟨['X', 'X', ' ', 'O', 'O', ' ', ' ', ' ', ' ']⟩ true
      (by decide) (by decide) (by decide)).1⟩

end TicTacToe
